import Mathlib

/-!
Verification development for the SANA text-encoder tokenizer
(`sana_text_encoder.cpp`).

The C++ tokenizer is shallowly embedded:

* `std::string` byte strings become `List Nat` of unsigned byte values;
* `std::vector` becomes `List` with positional access;
* `std::map` becomes an association list with insert-overwrite semantics
  (`assocInsert` / `assocFind?`), matching `operator[]` assignment and `find`;
* the `std::priority_queue` of SPM bigram candidates becomes a plain list
  together with a `popMax` selection function that removes a greatest
  element with respect to the source comparator `SanaSpmBigram::comparator`
  (ties on both score and left index — for which the heap order is
  unspecified in C++ — are resolved to the earliest-inserted element);
* `float` unigram scores become `Int`: the source applies only `!=` and `<`
  to scores, so any linearly ordered type models them (NaN scores are
  outside the model).

Loops that are not structurally recursive are written with an explicit fuel
argument; every call site passes fuel that provably dominates the number of
iterations of the corresponding C++ loop (the bound is argued in a comment
next to each definition), so the fueled function computes exactly what the
unbounded source loop computes.
-/

namespace SanaSpec

/-- A byte string: the contents of a `std::string`, as unsigned byte values. -/
abbrev Str := List Nat

/-- `utf8_len_char` from the source: classify the UTF-8 codepoint starting at
the head of `s` by the lead byte's high bits and return its byte length 1–4,
or 0 when the lead pattern is invalid or fewer bytes remain than the pattern
requires (the source's `max_len` is `s.length` at every call site). -/
def utf8_len_char (s : Str) : Nat :=
  match s with
  | [] => 0
  | c :: rest =>
    if c < 0x80 then 1
    else if 1 ≤ rest.length ∧ c &&& 0xE0 = 0xC0 then 2
    else if 2 ≤ rest.length ∧ c &&& 0xF0 = 0xE0 then 3
    else if 3 ≤ rest.length ∧ c &&& 0xF8 = 0xF0 then 4
    else 0

/-- Association-list lookup, modelling `std::map::find`. -/
def assocFind? {α β : Type} [DecidableEq α] (m : List (α × β)) (k : α) : Option β :=
  match m with
  | [] => none
  | (k', v) :: rest => if k' = k then some v else assocFind? rest k

/-- Association-list insert-or-overwrite, modelling assignment through
`std::map::operator[]`. -/
def assocInsert {α β : Type} [DecidableEq α] (m : List (α × β)) (k : α) (v : β) :
    List (α × β) :=
  match m with
  | [] => [(k, v)]
  | (k', v') :: rest =>
    if k' = k then (k', v) :: rest else (k', v') :: assocInsert rest k v

/-- The two tokenizer families of `SanaVocab::Type`. -/
inductive VocabType
  | SPM
  | BPE
deriving DecidableEq

/-- The vocabulary store `SanaVocab` (field defaults as in the header).
`pad_token_id` and `bpe_merges` are carried for completeness; the tokenizer
itself never reads them. -/
structure SanaVocab where
  token_to_id : List (Str × Int) := []
  id_to_token : List Str := []
  id_to_score : List Int := []
  bos_token_id : Int := 0
  eos_token_id : Int := 1
  pad_token_id : Int := -1
  unk_token_id : Int := 2
  type : VocabType := VocabType.SPM
  bpe_ranks : List ((Str × Str) × Nat) := []
deriving DecidableEq

/-- The token-id pushed for an unresolvable piece: `unk_token_id` when it is
set (not -1), nothing otherwise.  Models the ubiquitous source pattern
`if (unk_token_id != -1) output_tokens.push_back(unk_token_id);`. -/
def unkPiece (v : SanaVocab) : List Int :=
  if v.unk_token_id ≠ -1 then [v.unk_token_id] else []

/-- The loading loop `token_to_id[id_to_token[i]] = i` (lines 78–94 of the
source), run over the token array in index order starting at index `i0`. -/
def buildTokenToId : List Str → Nat → List (Str × Int) → List (Str × Int)
  | [], _, acc => acc
  | t :: ts, i, acc => buildTokenToId ts (i + 1) (assocInsert acc t (i : Int))

/-- `token_to_id` as produced by `SanaVocab::load_from_gguf` from a token
array. -/
def token_to_id_of (tokens : List Str) : List (Str × Int) :=
  buildTokenToId tokens 0 []

/-! ### The SPM tokenizer -/

/-- `SanaSpmSymbol`: one surviving text span during SPM merging.  The
source's `text_ptr` (a pointer into the input string) is modelled by the
byte offset `start`. -/
structure SpmSymbol where
  prev : Int := -1
  next : Int := -1
  start : Nat := 0
  n : Nat := 0
deriving DecidableEq

/-- `symbols[k]` (reads in the source always happen at valid indices; the
default is never observable there). -/
def nthSym (s : List SpmSymbol) (k : Nat) : SpmSymbol := s.getD k {}

/-- `SanaSpmBigram`: a proposed merge candidate. Indices stored in the queue are
always non-negative in the source (checked before pushing), hence `Nat`. -/
structure SpmBigram where
  left : Nat
  right : Nat
  score : Int
  size : Nat
deriving DecidableEq

/-- `SanaSpmBigram::comparator` verbatim: `l` is ordered strictly below `r`
iff `l.score < r.score`, or the scores are equal and `l.left > r.left`. -/
def spmBigramLt (l r : SpmBigram) : Bool :=
  if l.score ≠ r.score then decide (l.score < r.score)
  else decide (l.left > r.left)

/-- `priority_queue::top` + `pop`: remove a greatest element with respect to
`spmBigramLt`.  Among elements that compare equal on both score and left
index (where the C++ heap order is unspecified) the earliest-listed element
is taken. -/
def popMax : List SpmBigram → Option (SpmBigram × List SpmBigram)
  | [] => none
  | b :: rest =>
    match popMax rest with
    | none => some (b, [])
    | some (c, rest') => if spmBigramLt b c then some (c, b :: rest') else some (b, rest)

/-- `(uint32_t)` cast of an `int32_t` value. -/
def u32 (i : Int) : Nat := (i % 4294967296).toNat

/-- `try_add_bigram_spm` (lines 194–208): push a candidate for the symbol
pair `(left_idx, right_idx)` if both indices are positive and in bounds,
both symbols are unabsorbed, and the concatenated piece is a vocabulary
entry whose id is inside the score table.  The source's
`(size_t)idx >= symbols.size()` test on a negative non-(-1) index is a huge
unsigned value, hence fails; `0 ≤ idx ∧ idx.toNat < length` models both
tests.  The recorded `size` is `piece.length() = left.n + right.n`. -/
def try_add_bigram_spm (v : SanaVocab) (text : Str) (symbols : List SpmSymbol)
    (q : List SpmBigram) (left_idx right_idx : Int) : List SpmBigram :=
  if left_idx = -1 ∨ right_idx = -1 then q
  else if ¬(0 ≤ left_idx ∧ left_idx.toNat < symbols.length) ∨
          ¬(0 ≤ right_idx ∧ right_idx.toNat < symbols.length) then q
  else
    let ls := nthSym symbols left_idx.toNat
    let rs := nthSym symbols right_idx.toNat
    if ls.n = 0 ∨ rs.n = 0 then q
    else
      let piece := (text.drop ls.start).take (ls.n + rs.n)
      match assocFind? v.token_to_id piece with
      | none => q
      | some id =>
        if u32 id < v.id_to_score.length then
          q ++ [⟨left_idx.toNat, right_idx.toNat, v.id_to_score.getD (u32 id) 0, ls.n + rs.n⟩]
        else q

/-- The segmentation loop (lines 165–181): scan the text, creating one
symbol per decoded codepoint (`prev = idx-1`, `next` fixed afterwards) and
skipping one byte on a malformed decode.  Each iteration advances the
offset by at least one byte, so fuel `text.length` (passed by
`spmSegment`) runs the loop to completion. -/
def spmSegmentAux : Nat → Str → Nat → Nat → List SpmSymbol
  | 0, _, _, _ => []
  | fuel + 1, text, offs, idx =>
    if offs < text.length then
      let len := utf8_len_char (text.drop offs)
      if len = 0 then spmSegmentAux fuel text (offs + 1) idx
      else ⟨(idx : Int) - 1, -1, offs, len⟩ :: spmSegmentAux fuel text (offs + len) (idx + 1)
    else []

/-- The second segmentation loop (lines 185–191): `next = i+1` for every
symbol but the last, `next = -1` for the last.  `i0` is the index of the
first listed symbol. -/
def setNextChain (i0 : Nat) : List SpmSymbol → List SpmSymbol
  | [] => []
  | [s] => [{ s with next := -1 }]
  | s :: s' :: rest => { s with next := ((i0 + 1 : Nat) : Int) } :: setNextChain (i0 + 1) (s' :: rest)

/-- Symbol segmentation of the input text: both loops combined. -/
def spmSegment (text : Str) : List SpmSymbol :=
  setNextChain 0 (spmSegmentAux text.length text 0 0)

/-- The merge application (lines 227–233): extend the left symbol over the
right one, absorb the right symbol (`n = 0`), rewire `next`/`prev`.  The
writes happen in source order; the `prev` fix-up condition
`right.next != -1 && (size_t)right.next < size` is `0 ≤ next ∧ toNat < size`
(a negative non-(-1) value fails the unsigned bound test in C++). -/
def spmMergeStage1 (symbols : List SpmSymbol) (b : SpmBigram) : List SpmSymbol :=
  symbols.set b.left
    { nthSym symbols b.left with
      n := (nthSym symbols b.left).n + (nthSym symbols b.right).n,
      next := (nthSym symbols b.right).next }

def spmMergeStage2 (s1 : List SpmSymbol) (b : SpmBigram) : List SpmSymbol :=
  s1.set b.right { nthSym s1 b.right with n := 0 }

def spmApplyMerge (symbols : List SpmSymbol) (b : SpmBigram) : List SpmSymbol :=
  if 0 ≤ (nthSym symbols b.right).next ∧
      (nthSym symbols b.right).next.toNat <
        (spmMergeStage2 (spmMergeStage1 symbols b) b).length then
    (spmMergeStage2 (spmMergeStage1 symbols b) b).set (nthSym symbols b.right).next.toNat
      { nthSym (spmMergeStage2 (spmMergeStage1 symbols b) b)
          (nthSym symbols b.right).next.toNat with
        prev := (b.left : Int) }
  else spmMergeStage2 (spmMergeStage1 symbols b) b

/-- The re-validation test of the merge loop: both indices in bounds, both
symbols unabsorbed, and the combined length equal to the candidate's
recorded byte size. -/
def spmValidBigram (symbols : List SpmSymbol) (b : SpmBigram) : Bool :=
  decide (b.left < symbols.length) && decide (b.right < symbols.length) &&
    decide ((nthSym symbols b.left).n ≠ 0) && decide ((nthSym symbols b.right).n ≠ 0) &&
    decide ((nthSym symbols b.left).n + (nthSym symbols b.right).n = b.size)

/-- One iteration of the merge loop (lines 214–237): pop the top candidate;
discard it (keeping all symbols unchanged) if an index is out of bounds or
the re-validation fails; otherwise apply the merge and try to push the two
follow-up candidates `(left.prev, left)` and `(left, left.next)`, read from
the updated symbol array.  Returns `none` when the queue is empty. -/
def spmStep (v : SanaVocab) (text : Str) (symbols : List SpmSymbol)
    (q : List SpmBigram) : Option (List SpmSymbol × List SpmBigram) :=
  match popMax q with
  | none => none
  | some (b, rest) =>
    if ¬(b.left < symbols.length ∧ b.right < symbols.length) then some (symbols, rest)
    else
      let ls := nthSym symbols b.left
      let rs := nthSym symbols b.right
      if ls.n = 0 ∨ rs.n = 0 ∨ ls.n + rs.n ≠ b.size then some (symbols, rest)
      else
        let s' := spmApplyMerge symbols b
        let q1 := try_add_bigram_spm v text s' rest (nthSym s' b.left).prev (b.left : Int)
        let q2 := try_add_bigram_spm v text s' q1 (b.left : Int) (nthSym s' b.left).next
        some (s', q2)

/-- The merge loop `while (!work_queue.empty())`.  Each iteration pops one
candidate; candidates are pushed (at most two) only when a merge succeeds,
and every successful merge strictly decreases the number of unabsorbed
symbols, so the loop runs at most `|q₀| + 3·|symbols|` iterations; the fuel
passed by `tokenize_spm` (`4·|symbols| + 1 ≥ (|symbols|-1) + 3·|symbols| + 1`)
therefore drains the queue exactly as the source loop does. -/
def spmMergeLoop (v : SanaVocab) (text : Str) :
    Nat → List SpmSymbol → List SpmBigram → List SpmSymbol
  | 0, symbols, _ => symbols
  | fuel + 1, symbols, q =>
    match spmStep v text symbols q with
    | none => symbols
    | some (s', q') => spmMergeLoop v text fuel s' q'

/-- The seeding loop (lines 210–212): `try_add_bigram_spm(i, i+1)` for every
adjacent pair.  Runs `i` from 0 while `i + 1 < size`; fuel `size` covers
every iteration. -/
def spmInitQueueAux (v : SanaVocab) (text : Str) (symbols : List SpmSymbol) :
    Nat → Nat → List SpmBigram → List SpmBigram
  | 0, _, q => q
  | fuel + 1, i, q =>
    if i + 1 < symbols.length then
      spmInitQueueAux v text symbols fuel (i + 1)
        (try_add_bigram_spm v text symbols q (i : Int) ((i + 1 : Nat) : Int))
    else q

/-- The initial candidate queue of `tokenize_spm`. -/
def spmInitQueue (v : SanaVocab) (text : Str) (symbols : List SpmSymbol) : List SpmBigram :=
  spmInitQueueAux v text symbols symbols.length 0 []

/-- The per-codepoint fallback loop, appearing three times verbatim in the
source (SPM finalisation lines 246–257, BPE bootstrap lines 332–341, BPE
piece fallback lines 393–404): walk the bytes; a malformed byte emits
`unk` (when set) and skips one byte; a decoded codepoint is looked up and
emits its id, or `unk` (when set).  Each iteration consumes at least one
byte, so fuel `s.length` (passed by `charFallback`) runs it to
completion. -/
def charFallbackF (v : SanaVocab) : Nat → Str → List Int
  | _, [] => []
  | 0, _ :: _ => []
  | fuel + 1, s =>
    let len := utf8_len_char s
    if len = 0 then unkPiece v ++ charFallbackF v fuel (s.drop 1)
    else
      (match assocFind? v.token_to_id (s.take len) with
       | some id => [id]
       | none => unkPiece v) ++ charFallbackF v fuel (s.drop len)

/-- The per-codepoint fallback loop on a byte string. -/
def charFallback (v : SanaVocab) (s : Str) : List Int := charFallbackF v s.length s

/-- The output walk (lines 239–260): follow the `next` chain from symbol 0;
every unabsorbed symbol emits its piece's id, or the per-codepoint fallback
of the piece.  The `next` chain of the source is strictly increasing (a
merge sets `left.next` to `right.next > right > left`), so the walk visits
at most `|symbols|` nodes and the fuel `|symbols| + 1` passed by
`tokenize_spm` runs it to completion. -/
def spmFinalizeWalk (v : SanaVocab) (text : Str) (symbols : List SpmSymbol) :
    Nat → Int → List Int
  | 0, _ => []
  | fuel + 1, i =>
    if i = -1 then []
    else
      let sym := nthSym symbols i.toNat
      (if 0 < sym.n then
        match assocFind? v.token_to_id ((text.drop sym.start).take sym.n) with
        | some id => [id]
        | none => charFallback v ((text.drop sym.start).take sym.n)
      else []) ++ spmFinalizeWalk v text symbols fuel sym.next

/-- `SanaVocab::tokenize_spm` (lines 155–262). -/
def SanaVocab.tokenize_spm (v : SanaVocab) (text : Str) : List Int :=
  if text = [] ∨ v.id_to_score = [] then
    if text ≠ [] ∧ v.unk_token_id ≠ -1 then [v.unk_token_id] else []
  else
    let symbols := spmSegment text
    if symbols = [] then []
    else
      let q0 := spmInitQueue v text symbols
      let final := spmMergeLoop v text (4 * symbols.length + 1) symbols q0
      spmFinalizeWalk v text final (final.length + 1) 0

/-! ### The BPE tokenizer -/

/-- Byte class `\s` of the pre-tokenization pattern in the "C" locale. -/
def isSpaceB (b : Nat) : Bool :=
  b = 32 || b = 9 || b = 10 || b = 11 || b = 12 || b = 13

/-- Byte class `[[:alpha:]]` in the "C" locale. -/
def isAlphaB (b : Nat) : Bool :=
  (decide (65 ≤ b) && decide (b ≤ 90)) || (decide (97 ≤ b) && decide (b ≤ 122))

/-- Byte class `[0-9]`. -/
def isDigitB (b : Nat) : Bool := decide (48 ≤ b) && decide (b ≤ 57)

/-- Byte class `[^\s[:alnum:]]`.  Bytes ≥ 0x80 fall here: in the "C" locale
used by a default-constructed `std::regex` they are neither space nor
alphanumeric. -/
def isOtherB (b : Nat) : Bool := !isSpaceB b && !isAlphaB b && !isDigitB b

/-- `bpe_pre_tokenize_gpt2` (lines 284–325).  The source tokenizes with
`std::regex "('s|'t|'re|'ve|'m|'ll|'d|[[:alpha:]]+|[0-9]+|[^\s[:alnum:]]+|\s+)"`
via `sregex_token_iterator`.  Under ECMAScript semantics each match is found
at the leftmost position, alternatives are tried left to right and the
character-class alternatives are greedy; since the four classes together
cover every byte, every position starts a match, the matches tile the whole
input, and the source's two fallback branches (uncovered tail, empty match
list) are unreachable.  The iterator is therefore the following scanner: at
an apostrophe, try the seven contraction literals in order, else emit the
greedy run of the class of the head byte.  Each iteration consumes at least
one byte, so fuel `text.length` (passed by `bpe_pre_tokenize_gpt2`) runs
the scan to completion. -/
def bpePreTokenizeF : Nat → Str → List Str
  | _, [] => []
  | 0, _ :: _ => []
  | fuel + 1, c :: rest =>
    if c = 39 then
      if rest.take 1 = [115] then [39, 115] :: bpePreTokenizeF fuel (rest.drop 1)
      else if rest.take 1 = [116] then [39, 116] :: bpePreTokenizeF fuel (rest.drop 1)
      else if rest.take 2 = [114, 101] then [39, 114, 101] :: bpePreTokenizeF fuel (rest.drop 2)
      else if rest.take 2 = [118, 101] then [39, 118, 101] :: bpePreTokenizeF fuel (rest.drop 2)
      else if rest.take 1 = [109] then [39, 109] :: bpePreTokenizeF fuel (rest.drop 1)
      else if rest.take 2 = [108, 108] then [39, 108, 108] :: bpePreTokenizeF fuel (rest.drop 2)
      else if rest.take 1 = [100] then [39, 100] :: bpePreTokenizeF fuel (rest.drop 1)
      else
        (c :: rest).takeWhile isOtherB ::
          bpePreTokenizeF fuel ((c :: rest).dropWhile isOtherB)
    else if isAlphaB c then
      (c :: rest).takeWhile isAlphaB :: bpePreTokenizeF fuel ((c :: rest).dropWhile isAlphaB)
    else if isDigitB c then
      (c :: rest).takeWhile isDigitB :: bpePreTokenizeF fuel ((c :: rest).dropWhile isDigitB)
    else if isSpaceB c then
      (c :: rest).takeWhile isSpaceB :: bpePreTokenizeF fuel ((c :: rest).dropWhile isSpaceB)
    else
      (c :: rest).takeWhile isOtherB :: bpePreTokenizeF fuel ((c :: rest).dropWhile isOtherB)

/-- GPT-2-style pre-tokenization of the input text. -/
def bpe_pre_tokenize_gpt2 (text : Str) : List Str := bpePreTokenizeF text.length text

/-- The codepoint-splitting loop (lines 356–361, also the symbol text of a
word): collect one piece per decoded codepoint, silently skipping one byte
on a malformed decode.  Fuel `s.length` (passed by `codepoints`) covers the
loop. -/
def codepointsF : Nat → Str → List Str
  | _, [] => []
  | 0, _ :: _ => []
  | fuel + 1, s =>
    let len := utf8_len_char s
    if len = 0 then codepointsF fuel (s.drop 1)
    else s.take len :: codepointsF fuel (s.drop len)

/-- The codepoint pieces of a byte string (malformed bytes skipped). -/
def codepoints (s : Str) : List Str := codepointsF s.length s

/-- One comparison of the scan: a found rank replaces the current best when
there is no best yet (`best_rank == -1`) or when it is strictly lower. -/
def bestStep (found : Option Nat) (j : Nat) (best : Option (Nat × Nat)) :
    Option (Nat × Nat) :=
  match found, best with
  | some r, none => some (r, j)
  | some r, some (br, bi) => if r < br then some (r, j) else some (br, bi)
  | none, b => b

/-- The inner scan of the merge loop (lines 368–380): find the adjacent pair
with the lowest merge rank, keeping the earliest index on rank ties
(`rank < best_rank` is strict).  `best = none` models `best_rank == -1`.
The loop runs `j` from 0 while `j + 1 < pieces.length`; fuel
`pieces.length` covers it. -/
def bpeFindBestAux (ranks : List ((Str × Str) × Nat)) (pieces : List Str) :
    Nat → Nat → Option (Nat × Nat) → Option (Nat × Nat)
  | 0, _, best => best
  | fuel + 1, j, best =>
    if j + 1 < pieces.length then
      bpeFindBestAux ranks pieces fuel (j + 1)
        (bestStep (assocFind? ranks (pieces.getD j [], pieces.getD (j + 1) [])) j best)
    else best

/-- The best (lowest-rank, leftmost) adjacent merge of a piece list, as
`(rank, index)`. -/
def bpeFindBest (ranks : List ((Str × Str) × Nat)) (pieces : List Str) :
    Option (Nat × Nat) :=
  bpeFindBestAux ranks pieces pieces.length 0 none

/-- Replace the pieces at `j` and `j+1` by their concatenation (the source's
`erase` of the pair followed by `insert` at `j`). -/
def bpeMergeAt : Nat → List Str → List Str
  | 0, a :: b :: rest => (a ++ b) :: rest
  | j + 1, a :: rest => a :: bpeMergeAt j rest
  | _, l => l

/-- The merge loop `while (merged_in_iteration && sub_tokens.size() > 1)`
(lines 365–388).  Every successful merge shortens the list by one, so the
loop makes at most `|pieces| - 1` merging iterations plus one final scan;
fuel `|pieces|` (passed by `bpeProcessWord`) runs it to completion, because
fuel and list length decrease in lockstep and the loop stops at length 1. -/
def bpeMergeLoop (ranks : List ((Str × Str) × Nat)) : Nat → List Str → List Str
  | 0, ps => ps
  | fuel + 1, ps =>
    if ps.length ≤ 1 then ps
    else
      match bpeFindBest ranks ps with
      | none => ps
      | some (_, j) => bpeMergeLoop ranks fuel (bpeMergeAt j ps)

/-- The body of the per-pre-token loop of `tokenize_bpe` (lines 346–407):
skip an empty word; emit a whole-word vocabulary hit directly; otherwise
split into codepoint pieces, run the merge loop, and map every final piece
to its id or its per-codepoint fallback. -/
def bpeProcessWord (v : SanaVocab) (word : Str) : List Int :=
  if word = [] then []
  else
    match assocFind? v.token_to_id word with
    | some id => [id]
    | none =>
      let sub_tokens := codepoints word
      if sub_tokens = [] then []
      else
        (bpeMergeLoop v.bpe_ranks sub_tokens.length sub_tokens).flatMap fun st =>
          match assocFind? v.token_to_id st with
          | some id => [id]
          | none => charFallback v st

/-- `SanaVocab::tokenize_bpe` (lines 327–409).  The bootstrap branch
(lines 331–342) is byte-for-byte the per-codepoint fallback loop. -/
def SanaVocab.tokenize_bpe (v : SanaVocab) (text : Str) : List Int :=
  if text = [] then []
  else if v.bpe_ranks = [] ∧ v.id_to_token.length < 256 then charFallback v text
  else (bpe_pre_tokenize_gpt2 text).flatMap (bpeProcessWord v)

/-! ### The facade -/

/-- The in-range test for a special token id: the source tests
`id != -1 && (uint32_t)id < id_to_token.size()`; a negative id other than -1
casts to a huge unsigned value and fails the bound test, so the conjunction
is exactly `0 ≤ id ∧ id.toNat < size`. -/
def resolvesInRange (id : Int) (nvocab : Nat) : Bool :=
  decide (0 ≤ id) && decide (id.toNat < nvocab)

/-- `SanaVocab::tokenize` (lines 264–282): dispatch on the store type and
decorate with bos/eos, each added independently when requested and
resolving in range. -/
def SanaVocab.tokenize (v : SanaVocab) (text : Str) (add_bos add_eos : Bool) : List Int :=
  (if add_bos && resolvesInRange v.bos_token_id v.id_to_token.length
   then [v.bos_token_id] else [])
    ++ (match v.type with
        | VocabType.SPM => v.tokenize_spm text
        | VocabType.BPE => v.tokenize_bpe text)
    ++ (if add_eos && resolvesInRange v.eos_token_id v.id_to_token.length
        then [v.eos_token_id] else [])

/-! ### Specification-side notions

These are not translations of source loops but independent notions used to
state the claims: the scan of a byte string into codepoints with malformed
bytes marked, and well-formedness of UTF-8 input. -/

/-- The codepoint scan with malformed bytes kept as `none` markers: `some u`
for each decoded codepoint `u`, `none` for each byte the decoder rejects. -/
def scanPiecesF : Nat → Str → List (Option Str)
  | _, [] => []
  | 0, _ :: _ => []
  | fuel + 1, s =>
    let len := utf8_len_char s
    if len = 0 then none :: scanPiecesF fuel (s.drop 1)
    else some (s.take len) :: scanPiecesF fuel (s.drop len)

/-- The codepoint scan of a byte string. -/
def scanPieces (s : Str) : List (Option Str) := scanPiecesF s.length s

/-- The per-codepoint id sequence of a text: each scanned codepoint mapped
to its id, unmapped codepoints and malformed bytes replaced by `unk` when
set and dropped when unset. -/
def perScanIds (v : SanaVocab) (text : Str) : List Int :=
  (scanPieces text).flatMap fun o =>
    match o with
    | some u =>
      match assocFind? v.token_to_id u with
      | some id => [id]
      | none => unkPiece v
    | none => unkPiece v

/-- The per-codepoint id sequence over decoded codepoints only (malformed
bytes contribute nothing). -/
def perCodepointIds (v : SanaVocab) (text : Str) : List Int :=
  (codepoints text).flatMap fun u =>
    match assocFind? v.token_to_id u with
    | some id => [id]
    | none => unkPiece v

/-- The byte length the decoder attributes to a lead byte (without the
available-length cut-off of `utf8_len_char`). -/
def leadLen (c : Nat) : Nat :=
  if c < 0x80 then 1
  else if c &&& 0xE0 = 0xC0 then 2
  else if c &&& 0xF0 = 0xE0 then 3
  else if c &&& 0xF8 = 0xF0 then 4
  else 0

/-- A UTF-8 continuation byte. -/
def isContB (b : Nat) : Bool := decide (0x80 ≤ b) && decide (b < 0xC0)

/-- A well-formed codepoint unit: nonempty, lead byte < 256 whose pattern
declares exactly the unit's length, all remaining bytes continuation
bytes. -/
def GoodUnit (u : Str) : Bool :=
  match u with
  | [] => false
  | c :: rest => decide (c < 256) && decide (leadLen c = rest.length + 1) && rest.all isContB

/-- Well-formedness of a byte string: it is a concatenation of well-formed
codepoint units.  Each step consumes `leadLen ≥ 1` bytes, so fuel
`s.length` (passed by `wellFormedBytes`) decides the whole string. -/
def wellFormedF : Nat → Str → Bool
  | _, [] => true
  | 0, _ :: _ => false
  | fuel + 1, c :: rest =>
    let len := leadLen c
    decide (c < 256) && decide (1 ≤ len) && decide (len - 1 ≤ rest.length) &&
      (rest.take (len - 1)).all isContB && wellFormedF fuel (rest.drop (len - 1))

/-- Decidable well-formedness of UTF-8 input. -/
def wellFormedBytes (s : Str) : Bool := wellFormedF s.length s

/-! ### Lemmas about the candidate queue -/

theorem spmBigramLt_iff (a b : SpmBigram) :
    spmBigramLt a b = true ↔ a.score < b.score ∨ (a.score = b.score ∧ b.left < a.left) := by
  unfold spmBigramLt
  split_ifs with h
  · simp only [decide_eq_true_eq]
    constructor
    · exact Or.inl
    · rintro (hlt | ⟨heq, _⟩)
      · exact hlt
      · exact absurd heq h
  · push_neg at h
    simp only [decide_eq_true_eq, gt_iff_lt]
    constructor
    · intro hl; exact Or.inr ⟨h, hl⟩
    · rintro (hlt | ⟨_, hl⟩)
      · exact absurd h hlt.ne
      · exact hl

theorem spmBigramLt_false_iff (a b : SpmBigram) :
    spmBigramLt a b = false ↔ b.score < a.score ∨ (a.score = b.score ∧ a.left ≤ b.left) := by
  rw [Bool.eq_false_iff, Ne, spmBigramLt_iff]
  constructor
  · intro h; push_neg at h; omega
  · intro h; push_neg; omega

theorem spmBigramLt_neg_trans {a b c : SpmBigram}
    (hab : spmBigramLt a b = false) (hbc : spmBigramLt b c = false) :
    spmBigramLt a c = false := by
  rw [spmBigramLt_false_iff] at hab hbc ⊢
  omega

theorem popMax_eq_none_iff (q : List SpmBigram) : popMax q = none ↔ q = [] := by
  cases q with
  | nil => simp [popMax]
  | cons b rest =>
    rw [popMax]
    rcases hr : popMax rest with _ | ⟨c, r'⟩
    · simp
    · split
      · simp
      · split <;> simp

theorem popMax_spec (q : List SpmBigram) (b : SpmBigram) (rest : List SpmBigram)
    (h : popMax q = some (b, rest)) :
    q.Perm (b :: rest) ∧ ∀ c ∈ q, spmBigramLt b c = false := by
  induction q generalizing b rest with
  | nil => simp [popMax] at h
  | cons b0 q0 ih =>
    rw [popMax] at h
    rcases hq0 : popMax q0 with _ | ⟨c0, rest'⟩
    · rw [hq0] at h
      simp only [Option.some.injEq, Prod.mk.injEq] at h
      obtain ⟨hb, hrest⟩ := h
      subst hb; subst hrest
      have hq0' : q0 = [] := (popMax_eq_none_iff q0).mp hq0
      subst hq0'
      refine ⟨List.Perm.refl _, ?_⟩
      intro c hc
      simp only [List.mem_singleton] at hc
      subst hc
      rw [spmBigramLt_false_iff]
      omega
    · rw [hq0] at h
      obtain ⟨hperm, hmax⟩ := ih c0 rest' hq0
      by_cases hlt : spmBigramLt b0 c0 = true
      · simp only [hlt, if_true, Option.some.injEq, Prod.mk.injEq] at h
        obtain ⟨hb, hrest⟩ := h
        subst hb; subst hrest
        refine ⟨?_, ?_⟩
        · exact (hperm.cons b0).trans (List.Perm.swap _ _ _)
        · intro c hc
          rcases List.mem_cons.mp hc with hc | hc
          · subst hc
            rw [spmBigramLt_false_iff]
            rw [spmBigramLt_iff] at hlt
            omega
          · exact hmax c hc
      · rw [Bool.not_eq_true] at hlt
        simp only [hlt, Bool.false_eq_true, if_false, Option.some.injEq, Prod.mk.injEq] at h
        obtain ⟨hb, hrest⟩ := h
        subst hb; subst hrest
        refine ⟨List.Perm.refl _, ?_⟩
        intro c hc
        rcases List.mem_cons.mp hc with hc | hc
        · subst hc
          rw [spmBigramLt_false_iff]
          omega
        · exact spmBigramLt_neg_trans hlt (hmax c hc)

/-- Claim C1: the SPM candidate priority structure pops by higher score
first, and on equal score by smaller left index first.  Whenever `popMax`
(the model of `priority_queue::top/pop` under `SanaSpmBigram::comparator`)
pops `b` from the queue, no candidate `c` in the queue has a strictly
higher score, nor an equal score together with a strictly smaller left
index — so of any pair in the queue, the strictly-higher-score one (or, at
equal score, the smaller-left one) is popped earlier, and of two adjacent
equal-score bigrams the one at the smaller left index is merged first.
The queue is moreover a permutation of `b` and the remainder, so every
other candidate stays for later pops. -/
theorem spm_queue_pop_priority (q : List SpmBigram) (b : SpmBigram)
    (rest : List SpmBigram) (c : SpmBigram)
    (hpop : popMax q = some (b, rest)) (hc : c ∈ q) :
    ¬ b.score < c.score ∧ (b.score = c.score → b.left ≤ c.left) ∧ q.Perm (b :: rest) := by
  obtain ⟨hperm, hmax⟩ := popMax_spec q b rest hpop
  have hbc := hmax c hc
  rw [spmBigramLt_false_iff] at hbc
  exact ⟨by omega, by omega, hperm⟩

def bigramW1 : SpmBigram := ⟨0, 1, 5, 2⟩
def bigramW2 : SpmBigram := ⟨2, 3, 7, 2⟩
def bigramW3 : SpmBigram := ⟨1, 2, 7, 2⟩
def queueW : List SpmBigram := [bigramW1, bigramW2, bigramW3]

theorem spm_queue_pop_priority_witness :
    popMax queueW = some (bigramW3, [bigramW1, bigramW2]) ∧ bigramW2 ∈ queueW ∧
      ¬ bigramW3.score < bigramW2.score ∧
      (bigramW3.score = bigramW2.score → bigramW3.left ≤ bigramW2.left) ∧
      queueW.Perm (bigramW3 :: [bigramW1, bigramW2]) := by
  have h := spm_queue_pop_priority queueW bigramW3 [bigramW1, bigramW2] bigramW2
    (by decide) (by decide)
  exact ⟨by decide, by decide, h.1, h.2.1, h.2.2⟩

/-! ### The merge step -/

theorem spmValidBigram_iff (symbols : List SpmSymbol) (b : SpmBigram) :
    spmValidBigram symbols b = true ↔
      b.left < symbols.length ∧ b.right < symbols.length ∧
        (nthSym symbols b.left).n ≠ 0 ∧ (nthSym symbols b.right).n ≠ 0 ∧
        (nthSym symbols b.left).n + (nthSym symbols b.right).n = b.size := by
  simp [spmValidBigram, and_assoc]

theorem spmStep_eq_of_pop (v : SanaVocab) (text : Str) (symbols : List SpmSymbol)
    (q : List SpmBigram) (b : SpmBigram) (rest : List SpmBigram)
    (hpop : popMax q = some (b, rest)) :
    spmStep v text symbols q =
      if ¬(b.left < symbols.length ∧ b.right < symbols.length) then some (symbols, rest)
      else if (nthSym symbols b.left).n = 0 ∨ (nthSym symbols b.right).n = 0 ∨
          (nthSym symbols b.left).n + (nthSym symbols b.right).n ≠ b.size then
        some (symbols, rest)
      else
        some (spmApplyMerge symbols b,
          try_add_bigram_spm v text (spmApplyMerge symbols b)
            (try_add_bigram_spm v text (spmApplyMerge symbols b) rest
              (nthSym (spmApplyMerge symbols b) b.left).prev (b.left : Int))
            (b.left : Int) (nthSym (spmApplyMerge symbols b) b.left).next) := by
  unfold spmStep
  rw [hpop]

/-- Claim C2: a popped SPM bigram candidate is applied — the left symbol's
length extended over the right one, the right symbol absorbed, the links
rewired, and the two follow-up candidates pushed (all of which
`spmApplyMerge` performs) — exactly when, at the moment it is popped, both
referenced symbols are in bounds with length > 0 and the sum of their
lengths equals the candidate's recorded byte size (`spmValidBigram`); a
candidate failing this check is discarded, leaving every symbol
unchanged. -/
theorem spm_merge_revalidation (v : SanaVocab) (text : Str) (symbols : List SpmSymbol)
    (q : List SpmBigram) (b : SpmBigram) (rest : List SpmBigram)
    (hpop : popMax q = some (b, rest)) :
    (spmValidBigram symbols b = false → spmStep v text symbols q = some (symbols, rest)) ∧
    (spmValidBigram symbols b = true →
      spmStep v text symbols q =
        some (spmApplyMerge symbols b,
          try_add_bigram_spm v text (spmApplyMerge symbols b)
            (try_add_bigram_spm v text (spmApplyMerge symbols b) rest
              (nthSym (spmApplyMerge symbols b) b.left).prev (b.left : Int))
            (b.left : Int) (nthSym (spmApplyMerge symbols b) b.left).next)) := by
  rw [spmStep_eq_of_pop v text symbols q b rest hpop]
  constructor
  · intro hinvalid
    rw [Bool.eq_false_iff, Ne, spmValidBigram_iff] at hinvalid
    by_cases h1 : b.left < symbols.length ∧ b.right < symbols.length
    · rw [if_neg (not_not_intro h1)]
      rw [if_pos (by push_neg at hinvalid; rcases h1 with ⟨ha, hb⟩; tauto)]
    · rw [if_pos h1]
  · intro hvalid
    rw [spmValidBigram_iff] at hvalid
    obtain ⟨h1, h2, h3, h4, h5⟩ := hvalid
    rw [if_neg (not_not_intro ⟨h1, h2⟩), if_neg (by push_neg; exact ⟨h3, h4, h5⟩)]

def symbolsW : List SpmSymbol :=
  [⟨-1, 1, 0, 1⟩, ⟨0, 2, 1, 1⟩, ⟨1, -1, 2, 1⟩]

def vocabW : SanaVocab :=
  { token_to_id := token_to_id_of [[97], [98], [99], [97, 98]]
    id_to_token := [[97], [98], [99], [97, 98]]
    id_to_score := [-10, -10, -10, -5]
    bos_token_id := -1
    eos_token_id := -1
    unk_token_id := -1
    type := VocabType.SPM
    bpe_ranks := [] }

theorem spm_merge_revalidation_witness :
    popMax [(⟨0, 1, -5, 2⟩ : SpmBigram), ⟨1, 2, -7, 5⟩] = some (⟨0, 1, -5, 2⟩, [⟨1, 2, -7, 5⟩]) ∧
      spmValidBigram symbolsW ⟨0, 1, -5, 2⟩ = true ∧
      spmValidBigram symbolsW ⟨1, 2, -7, 5⟩ = false ∧
      spmStep vocabW [97, 98, 99] symbolsW [⟨0, 1, -5, 2⟩, ⟨1, 2, -7, 5⟩] =
        some (spmApplyMerge symbolsW ⟨0, 1, -5, 2⟩,
          try_add_bigram_spm vocabW [97, 98, 99] (spmApplyMerge symbolsW ⟨0, 1, -5, 2⟩)
            (try_add_bigram_spm vocabW [97, 98, 99] (spmApplyMerge symbolsW ⟨0, 1, -5, 2⟩)
              [⟨1, 2, -7, 5⟩]
              (nthSym (spmApplyMerge symbolsW ⟨0, 1, -5, 2⟩) 0).prev (0 : Int))
            (0 : Int) (nthSym (spmApplyMerge symbolsW ⟨0, 1, -5, 2⟩) 0).next) ∧
      spmStep vocabW [97, 98, 99] symbolsW [⟨1, 2, -7, 5⟩] = some (symbolsW, []) := by
  refine ⟨by decide, by decide, by decide, ?_, ?_⟩
  · exact (spm_merge_revalidation vocabW [97, 98, 99] symbolsW
      [⟨0, 1, -5, 2⟩, ⟨1, 2, -7, 5⟩] ⟨0, 1, -5, 2⟩ [⟨1, 2, -7, 5⟩] (by decide)).2 (by decide)
  · exact (spm_merge_revalidation vocabW [97, 98, 99] symbolsW
      [⟨1, 2, -7, 5⟩] ⟨1, 2, -7, 5⟩ [] (by decide)).1 (by decide)

/-! ### The facade on empty input -/

theorem tokenize_spm_nil (v : SanaVocab) : v.tokenize_spm [] = [] := by
  simp [SanaVocab.tokenize_spm]

theorem tokenize_bpe_nil (v : SanaVocab) : v.tokenize_bpe [] = [] := by
  simp [SanaVocab.tokenize_bpe]

def vocabBosOnly : SanaVocab :=
  { token_to_id := token_to_id_of [[97]]
    id_to_token := [[97]]
    id_to_score := []
    bos_token_id := 0
    eos_token_id := -1
    unk_token_id := -1
    type := VocabType.SPM
    bpe_ranks := [] }

/-- Claim C3 is refuted: with `bos_token_id = 0` in range and
`eos_token_id = -1` unset, exactly one of the two special ids resolves, yet
`tokenize("", add_bos=true, add_eos=true)` returns `[0]`, not the empty
sequence the claim demands for that case. -/
theorem facade_empty_cex :
    resolvesInRange vocabBosOnly.bos_token_id vocabBosOnly.id_to_token.length = true ∧
      resolvesInRange vocabBosOnly.eos_token_id vocabBosOnly.id_to_token.length = false ∧
      vocabBosOnly.tokenize [] true true = [0] ∧
      vocabBosOnly.tokenize [] true true ≠ [] := by
  refine ⟨by decide, by decide, by decide, by decide⟩

/-- Claim C3, amended: `tokenize("", add_bos=true, add_eos=true)` prepends
`bos_token_id` and appends `eos_token_id` independently, each exactly when
it resolves in range (`≠ -1` and `< len(id_to_token)` under the unsigned
cast): `[bos, eos]` when both resolve, the singleton of the resolving one
when exactly one does, `[]` when neither does. -/
theorem facade_empty_decoration (v : SanaVocab) :
    v.tokenize [] true true =
      (if resolvesInRange v.bos_token_id v.id_to_token.length then [v.bos_token_id] else [])
        ++ (if resolvesInRange v.eos_token_id v.id_to_token.length then [v.eos_token_id]
            else []) := by
  unfold SanaVocab.tokenize
  rcases htype : v.type with _ | _ <;>
    simp [htype, tokenize_spm_nil, tokenize_bpe_nil]

/-! ### SPM with no usable score table -/

def vocabNoScores : SanaVocab :=
  { token_to_id := token_to_id_of [[97]]
    id_to_token := [[97]]
    id_to_score := []
    bos_token_id := -1
    eos_token_id := -1
    unk_token_id := -1
    type := VocabType.SPM
    bpe_ranks := [] }

/-- Claim C5 is refuted as stated: on a store with an empty score table and
`unk_token_id` unset (-1), SPM tokenization of the non-empty input `"a"`
returns `[]` — the unknown-token id is not emitted at all, not emitted
exactly once. -/
theorem spm_unusable_cex :
    vocabNoScores.id_to_score = [] ∧
      vocabNoScores.tokenize_spm [97] = [] ∧
      (vocabNoScores.tokenize_spm [97]).count vocabNoScores.unk_token_id ≠ 1 := by
  refine ⟨by decide, by decide, by decide⟩

/-- Claim C5, amended: for every input text, if the text is empty or the
store's score table is empty, SPM tokenization returns empty output, except
that it emits the unknown-token id exactly once when the input is non-empty
and `unk_token_id` is set (not -1); no segmentation or merging is attempted
(the function returns at its first test). -/
theorem spm_unusable_output (v : SanaVocab) (text : Str)
    (h : text = [] ∨ v.id_to_score = []) :
    v.tokenize_spm text =
      if text = [] then []
      else if v.unk_token_id ≠ -1 then [v.unk_token_id] else [] := by
  unfold SanaVocab.tokenize_spm
  rw [if_pos h]
  by_cases ht : text = []
  · simp [ht]
  · simp [ht]

def vocabNoScoresU : SanaVocab := { vocabNoScores with unk_token_id := 7 }

theorem spm_unusable_output_witness :
    (([97] : Str) = [] ∨ vocabNoScoresU.id_to_score = []) ∧
      vocabNoScoresU.tokenize_spm [97] = [7] := by
  refine ⟨Or.inr (by decide), ?_⟩
  have h := spm_unusable_output vocabNoScoresU [97] (Or.inr (by decide))
  simpa using h

/-! ### The BPE whole-word shortcut -/

/-- Claim C7: in BPE tokenization, a pre-token whose entire byte string is a
key of `token_to_id` emits exactly that entry's id — `bpeProcessWord`, the
body of the per-pre-token loop of `tokenize_bpe`, returns the singleton of
the mapped id without any piece splitting or merge scan, for every store
(in particular whatever `bpe_ranks` contains). -/
theorem bpe_whole_word_shortcut (v : SanaVocab) (word : Str) (id : Int)
    (hne : word ≠ []) (hf : assocFind? v.token_to_id word = some id) :
    bpeProcessWord v word = [id] := by
  unfold bpeProcessWord
  rw [if_neg hne, hf]

def vocabWord : SanaVocab :=
  { token_to_id := token_to_id_of [[104], [105], [104, 105]]
    id_to_token := [[104], [105], [104, 105]]
    id_to_score := []
    bos_token_id := -1
    eos_token_id := -1
    unk_token_id := -1
    type := VocabType.BPE
    bpe_ranks := [(([105], [104]), 0)] }

theorem bpe_whole_word_shortcut_witness :
    (([104, 105] : Str) ≠ []) ∧
      assocFind? vocabWord.token_to_id [104, 105] = some 2 ∧
      bpeProcessWord vocabWord [104, 105] = [2] := by
  refine ⟨by decide, by decide, ?_⟩
  exact bpe_whole_word_shortcut vocabWord [104, 105] 2 (by decide) (by decide)

/-! ### SPM on fully malformed input -/

theorem spmSegmentAux_malformed (text : Str) :
    ∀ (fuel offs idx : Nat),
      (∀ k, offs ≤ k → k < text.length → utf8_len_char (text.drop k) = 0) →
      spmSegmentAux fuel text offs idx = [] := by
  intro fuel
  induction fuel with
  | zero => intro offs idx _; rfl
  | succ fuel ih =>
    intro offs idx h
    rw [spmSegmentAux]
    by_cases hoff : offs < text.length
    · rw [if_pos hoff]
      simp only [h offs le_rfl hoff, if_pos rfl]
      exact ih (offs + 1) idx fun k hk hk' => h k (by omega) hk'
    · rw [if_neg hoff]

/-- Claim C10: for every SPM store with a non-empty score table, a non-empty
input every byte position of which the codepoint decoder rejects
(`utf8_len_char` returns 0 on every suffix) produces the empty output — the
symbol list is empty after segmentation, so no unknown-token id is emitted
even when `unk_token_id` is set. -/
theorem spm_malformed_only_empty (v : SanaVocab) (text : Str)
    (hscores : v.id_to_score ≠ []) (hne : text ≠ [])
    (hmal : ∀ k, k < text.length → utf8_len_char (text.drop k) = 0) :
    v.tokenize_spm text = [] := by
  unfold SanaVocab.tokenize_spm
  rw [if_neg (by push_neg; exact ⟨hne, hscores⟩)]
  have hseg : spmSegment text = [] := by
    unfold spmSegment
    rw [spmSegmentAux_malformed text text.length 0 0 fun k _ hk => hmal k hk]
    rfl
  rw [hseg]
  simp

def vocabScored : SanaVocab :=
  { token_to_id := token_to_id_of [[97]]
    id_to_token := [[97]]
    id_to_score := [-1]
    bos_token_id := -1
    eos_token_id := -1
    unk_token_id := 5
    type := VocabType.SPM
    bpe_ranks := [] }

theorem spm_malformed_only_empty_witness :
    vocabScored.id_to_score ≠ [] ∧ (([128] : Str) ≠ []) ∧
      (∀ k, k < ([128] : Str).length → utf8_len_char (([128] : Str).drop k) = 0) ∧
      vocabScored.unk_token_id = 5 ∧
      vocabScored.tokenize_spm [128] = [] := by
  refine ⟨by decide, by decide, by decide, by decide, ?_⟩
  exact spm_malformed_only_empty vocabScored [128] (by decide) (by decide) (by decide)

/-! ### Loading: duplicate tokens -/

theorem assocFind_insert_self {α β : Type} [DecidableEq α]
    (m : List (α × β)) (k : α) (v : β) :
    assocFind? (assocInsert m k v) k = some v := by
  induction m with
  | nil => simp [assocInsert, assocFind?]
  | cons p rest ih =>
    obtain ⟨k', v'⟩ := p
    by_cases h : k' = k
    · simp [assocInsert, assocFind?, h]
    · simp [assocInsert, assocFind?, h, ih]

theorem assocFind_insert_other {α β : Type} [DecidableEq α]
    (m : List (α × β)) (k k' : α) (v : β) (h : k' ≠ k) :
    assocFind? (assocInsert m k v) k' = assocFind? m k' := by
  induction m with
  | nil =>
    simp only [assocInsert, assocFind?]
    rw [if_neg (Ne.symm h)]
  | cons p rest ih =>
    obtain ⟨k0, v0⟩ := p
    by_cases h0 : k0 = k
    · subst h0
      simp only [assocInsert, if_pos rfl, assocFind?]
      by_cases h1 : k0 = k'
      · exact absurd h1.symm h
      · rw [if_neg h1, if_neg h1]
    · simp only [assocInsert, if_neg h0, assocFind?]
      by_cases h1 : k0 = k'
      · rw [if_pos h1, if_pos h1]
      · rw [if_neg h1, if_neg h1, ih]

/-- The last index at which `k` occurs in `ts`, offset by `i`. -/
def lastIdxFrom : List Str → Nat → Str → Option Nat
  | [], _, _ => none
  | t :: ts, i, k =>
    match lastIdxFrom ts (i + 1) k with
    | some j => some j
    | none => if t = k then some i else none

theorem find_buildTokenToId (ts : List Str) :
    ∀ (i : Nat) (acc : List (Str × Int)) (k : Str),
      assocFind? (buildTokenToId ts i acc) k =
        match lastIdxFrom ts i k with
        | some j => some (j : Int)
        | none => assocFind? acc k := by
  induction ts with
  | nil => intro i acc k; rfl
  | cons t ts ih =>
    intro i acc k
    rw [buildTokenToId, ih, lastIdxFrom]
    rcases h' : lastIdxFrom ts (i + 1) k with _ | j
    · by_cases hk : t = k
      · subst hk
        simp [assocFind_insert_self]
      · simp [hk, assocFind_insert_other acc t k (i : Int) (fun hh => hk hh.symm)]
    · simp

theorem lastIdxFrom_none (k : Str) :
    ∀ (ts : List Str) (i : Nat), lastIdxFrom ts i k = none →
      ∀ p, p < ts.length → ts.getD p [] ≠ k := by
  intro ts
  induction ts with
  | nil => intro i _ p hp; simp at hp
  | cons t ts ih =>
    intro i h p hp
    rw [lastIdxFrom] at h
    rcases h' : lastIdxFrom ts (i + 1) k with _ | j
    · rw [h'] at h
      have ht : t ≠ k := by
        by_contra hc
        rw [if_pos hc] at h
        exact absurd h (by simp)
      cases p with
      | zero => simpa using ht
      | succ p =>
        rw [List.getD_cons_succ]
        exact ih (i + 1) h' p (by simpa using hp)
    · rw [h'] at h
      exact absurd h (by simp)

theorem lastIdxFrom_mem (k : Str) :
    ∀ (ts : List Str) (i : Nat), k ∈ ts → ∃ j, lastIdxFrom ts i k = some j := by
  intro ts
  induction ts with
  | nil => intro i h; simp at h
  | cons t ts ih =>
    intro i h
    rw [lastIdxFrom]
    rcases h' : lastIdxFrom ts (i + 1) k with _ | j
    · rcases List.mem_cons.mp h with ht | hts
      · exact ⟨i, by simp [ht.symm]⟩
      · obtain ⟨j, hj⟩ := ih (i + 1) hts
        rw [hj] at h'
        exact absurd h' (by simp)
    · exact ⟨j, rfl⟩

theorem lastIdxFrom_spec (k : Str) :
    ∀ (ts : List Str) (i j : Nat), lastIdxFrom ts i k = some j →
      i ≤ j ∧ j - i < ts.length ∧ ts.getD (j - i) [] = k ∧
        ∀ p, p < ts.length → ts.getD p [] = k → i + p ≤ j := by
  intro ts
  induction ts with
  | nil => intro i j h; exact absurd h (by simp [lastIdxFrom])
  | cons t ts ih =>
    intro i j h
    rw [lastIdxFrom] at h
    rcases h' : lastIdxFrom ts (i + 1) k with _ | j'
    · rw [h'] at h
      by_cases ht : t = k
      · rw [if_pos ht] at h
        have hij : i = j := by simpa using h
        refine ⟨by omega, by simp only [List.length_cons]; omega, ?_, ?_⟩
        · have h0 : j - i = 0 := by omega
          rw [h0]
          simpa using ht
        · intro p hp hk
          cases p with
          | zero => omega
          | succ p =>
            rw [List.getD_cons_succ] at hk
            exact absurd hk (lastIdxFrom_none k ts (i + 1) h' p (by simpa using hp))
      · rw [if_neg ht] at h
        exact absurd h (by simp)
    · rw [h'] at h
      have hjj : j' = j := by simpa using h
      obtain ⟨h1, h2, h3, h4⟩ := ih (i + 1) j' h'
      rw [hjj] at h1 h2 h3 h4
      refine ⟨by omega, by simp only [List.length_cons]; omega, ?_, ?_⟩
      · have hji : j - i = (j - (i + 1)) + 1 := by omega
        rw [hji, List.getD_cons_succ]
        exact h3
      · intro p hp hk
        cases p with
        | zero => omega
        | succ p =>
          rw [List.getD_cons_succ] at hk
          have := h4 p (by simpa using hp) hk
          omega

/-- Claim C8: after loading a token array, for every string occurring in
the array, `token_to_id` (`token_to_id_of`, the model of the load loop
`token_to_id[id_to_token[i]] = i`) maps it to the largest index `j` at
which it occurs — the last-seen id wins — while the id-indexed table (the
token array itself, stored unchanged as `id_to_token`) retains every
occurrence at its original index; hence for a duplicated string every
earlier id is not the result of text lookup. -/
theorem load_duplicates_last_wins (tokens : List Str) (s : Str) (h : s ∈ tokens) :
    ∃ j, j < tokens.length ∧
      assocFind? (token_to_id_of tokens) s = some (j : Int) ∧
      tokens.getD j [] = s ∧
      (∀ i, i < tokens.length → tokens.getD i [] = s → i ≤ j) ∧
      (∀ i, i < j → assocFind? (token_to_id_of tokens) s ≠ some (i : Int)) := by
  obtain ⟨j, hj⟩ := lastIdxFrom_mem s tokens 0 h
  obtain ⟨_, h2, h3, h4⟩ := lastIdxFrom_spec s tokens 0 j hj
  refine ⟨j, by simpa using h2, ?_, by simpa using h3, ?_, ?_⟩
  · rw [token_to_id_of, find_buildTokenToId, hj]
  · intro i hi hs
    have := h4 i hi hs
    omega
  · intro i hi hne
    rw [token_to_id_of, find_buildTokenToId, hj] at hne
    simp only [Option.some.injEq] at hne
    omega

theorem load_duplicates_last_wins_witness :
    (([97] : Str) ∈ [[97], [98], [97]]) ∧
      assocFind? (token_to_id_of [[97], [98], [97]]) [97] = some 2 ∧
      ([[97], [98], [97]] : List Str).getD 0 [] = [97] ∧
      assocFind? (token_to_id_of [[97], [98], [97]]) [97] ≠ some 0 := by
  obtain ⟨j, hlt, hfind, hget, hmax, hne⟩ :=
    load_duplicates_last_wins [[97], [98], [97]] [97] (by decide)
  obtain rfl : j = 2 := by
    have h0 := hmax 2 (by decide) (by decide)
    have hlen : ([[97], [98], [97]] : List Str).length = 3 := by decide
    omega
  exact ⟨by decide, hfind, by decide, hne 0 (by decide)⟩

/-! ### The BPE merge scan -/

/-- The merge rank of the adjacent piece pair at position `k`, as consulted
by the scan of the merge loop (`none` outside the scanned range). -/
def pairRank (ranks : List ((Str × Str) × Nat)) (pieces : List Str) (k : Nat) : Option Nat :=
  if k + 1 < pieces.length then
    assocFind? ranks (pieces.getD k [], pieces.getD (k + 1) [])
  else none

theorem pairRank_none_of_ge (ranks : List ((Str × Str) × Nat)) (pieces : List Str)
    (k : Nat) (h : pieces.length ≤ k + 1) : pairRank ranks pieces k = none := by
  rw [pairRank, if_neg (by omega)]

/-- The loop invariant of the best-merge scan: after examining positions
`< j`, `best` is `none` when no examined pair has a rank, and otherwise the
leftmost examined position attaining the minimal examined rank. -/
def bestInv (ranks : List ((Str × Str) × Nat)) (pieces : List Str) (j : Nat) :
    Option (Nat × Nat) → Prop
  | none => ∀ k, k < j → pairRank ranks pieces k = none
  | some (br, bi) => bi < j ∧ pairRank ranks pieces bi = some br ∧
      (∀ k r', k < j → pairRank ranks pieces k = some r' → br ≤ r') ∧
      ∀ k r', k < bi → pairRank ranks pieces k = some r' → br < r'

theorem bestInv_mono (ranks : List ((Str × Str) × Nat)) (pieces : List Str)
    {j J : Nat} {best : Option (Nat × Nat)} (h : bestInv ranks pieces j best)
    (hj : j ≤ J) (hnone : ∀ k, j ≤ k → pairRank ranks pieces k = none) :
    bestInv ranks pieces J best := by
  rcases best with _ | ⟨br, bi⟩
  · intro k hk
    by_cases hkj : k < j
    · exact h k hkj
    · exact hnone k (by omega)
  · obtain ⟨h1, h2, h3, h4⟩ := h
    refine ⟨by omega, h2, ?_, h4⟩
    intro k r' hk hr
    by_cases hkj : k < j
    · exact h3 k r' hkj hr
    · rw [hnone k (by omega)] at hr
      exact absurd hr (by simp)

theorem bestInv_step (ranks : List ((Str × Str) × Nat)) (pieces : List Str)
    (j : Nat) (best : Option (Nat × Nat)) (hinv : bestInv ranks pieces j best)
    (hj : j + 1 < pieces.length) :
    bestInv ranks pieces (j + 1)
      (bestStep (assocFind? ranks (pieces.getD j [], pieces.getD (j + 1) [])) j best) := by
  have hguard : pairRank ranks pieces j =
      assocFind? ranks (pieces.getD j [], pieces.getD (j + 1) []) := by
    rw [pairRank, if_pos hj]
  rcases hf : assocFind? ranks (pieces.getD j [], pieces.getD (j + 1) []) with _ | r
  · rw [hf] at hguard
    rcases best with _ | ⟨br, bi⟩
    · simp only [bestStep]
      intro k hk
      by_cases hkj : k < j
      · exact hinv k hkj
      · have hkeq : k = j := by omega
        rw [hkeq, hguard]
    · simp only [bestStep]
      obtain ⟨h1, h2, h3, h4⟩ := hinv
      refine ⟨by omega, h2, ?_, h4⟩
      intro k r' hk hr
      by_cases hkj : k < j
      · exact h3 k r' hkj hr
      · have hkeq : k = j := by omega
        rw [hkeq, hguard] at hr
        exact absurd hr (by simp)
  · rw [hf] at hguard
    rcases best with _ | ⟨br, bi⟩
    · simp only [bestStep]
      refine ⟨by omega, hguard, ?_, ?_⟩
      · intro k r' hk hr
        by_cases hkj : k < j
        · rw [hinv k hkj] at hr
          exact absurd hr (by simp)
        · have hkeq : k = j := by omega
          rw [hkeq, hguard] at hr
          simp only [Option.some.injEq] at hr
          omega
      · intro k r' hk hr
        rw [hinv k (by omega)] at hr
        exact absurd hr (by simp)
    · obtain ⟨h1, h2, h3, h4⟩ := hinv
      simp only [bestStep]
      by_cases hrb : r < br
      · rw [if_pos hrb]
        refine ⟨by omega, hguard, ?_, ?_⟩
        · intro k r' hk hr
          by_cases hkj : k < j
          · have := h3 k r' hkj hr
            omega
          · have hkeq : k = j := by omega
            rw [hkeq, hguard] at hr
            simp only [Option.some.injEq] at hr
            omega
        · intro k r' hk hr
          have := h3 k r' (by omega) hr
          omega
      · rw [if_neg hrb]
        refine ⟨by omega, h2, ?_, h4⟩
        intro k r' hk hr
        by_cases hkj : k < j
        · exact h3 k r' hkj hr
        · have hkeq : k = j := by omega
          rw [hkeq, hguard] at hr
          simp only [Option.some.injEq] at hr
          omega

theorem bpeFindBestAux_spec (ranks : List ((Str × Str) × Nat)) (pieces : List Str) :
    ∀ (fuel j : Nat) (best : Option (Nat × Nat)),
      pieces.length ≤ fuel + j → bestInv ranks pieces j best →
      bestInv ranks pieces (fuel + j) (bpeFindBestAux ranks pieces fuel j best) := by
  intro fuel
  induction fuel with
  | zero =>
    intro j best _ hinv
    simpa [bpeFindBestAux] using hinv
  | succ fuel ih =>
    intro j best hlen hinv
    rw [bpeFindBestAux]
    by_cases hj : j + 1 < pieces.length
    · rw [if_pos hj]
      have hrec := ih (j + 1)
        (bestStep (assocFind? ranks (pieces.getD j [], pieces.getD (j + 1) [])) j best)
        (by omega) (bestInv_step ranks pieces j best hinv hj)
      have heq : fuel + (j + 1) = fuel + 1 + j := by omega
      rw [heq] at hrec
      exact hrec
    · rw [if_neg hj]
      exact bestInv_mono ranks pieces hinv (by omega)
        (fun k hk => pairRank_none_of_ge ranks pieces k (by omega))

/-- Claim C9: in the BPE per-pre-token merge scan, the selected pair is the
leftmost pair attaining the minimal merge rank — the scan
(`bpeFindBest`, the model of the `best_rank`/`merge_idx` loop) returns a
position whose rank is minimal among all adjacent pairs and such that every
strictly earlier pair either has no rank or a strictly greater rank
(a later pair replaces the current best only on strictly smaller rank), and
the merge loop's next iteration merges exactly at that position. -/
theorem bpe_leftmost_min_rank (ranks : List ((Str × Str) × Nat)) (pieces : List Str)
    (r j : Nat) (h : bpeFindBest ranks pieces = some (r, j)) :
    pairRank ranks pieces j = some r ∧
      (∀ k r', pairRank ranks pieces k = some r' → r ≤ r') ∧
      (∀ k r', k < j → pairRank ranks pieces k = some r' → r < r') ∧
      ∀ fuel, 1 < pieces.length →
        bpeMergeLoop ranks (fuel + 1) pieces = bpeMergeLoop ranks fuel (bpeMergeAt j pieces) := by
  have hspec := bpeFindBestAux_spec ranks pieces pieces.length 0 none
    (by omega) (fun k hk => absurd hk (by omega))
  rw [bpeFindBest] at h
  rw [h] at hspec
  obtain ⟨h1, h2, h3, h4⟩ := hspec
  refine ⟨h2, ?_, h4, ?_⟩
  · intro k r' hr
    by_cases hk : k < pieces.length + 0
    · exact h3 k r' hk hr
    · rw [pairRank_none_of_ge ranks pieces k (by omega)] at hr
      exact absurd hr (by simp)
  · intro fuel hlen
    rw [bpeMergeLoop, if_neg (by omega), bpeFindBest, h]

def ranksW : List ((Str × Str) × Nat) :=
  [(([97], [98]), 3), (([98], [97]), 5), (([97], [97]), 3)]

def piecesW : List Str := [[98], [97], [98], [97], [98]]

theorem bpe_leftmost_min_rank_witness :
    bpeFindBest ranksW piecesW = some (3, 1) ∧
      pairRank ranksW piecesW 1 = some 3 ∧
      pairRank ranksW piecesW 3 = some 3 ∧
      (∀ fuel, 1 < piecesW.length →
        bpeMergeLoop ranksW (fuel + 1) piecesW = bpeMergeLoop ranksW fuel (bpeMergeAt 1 piecesW)) ∧
      pairRank ranksW piecesW 0 = some 5 ∧ 3 < 5 := by
  obtain ⟨ha, hb, hc, hd⟩ := bpe_leftmost_min_rank ranksW piecesW 3 1 (by decide)
  exact ⟨by decide, ha, by decide, hd, by decide, by decide⟩

/-! ### The BPE bootstrap shortcut -/

theorem charFallbackF_eq_scan (v : SanaVocab) :
    ∀ (fuel : Nat) (s : Str),
      charFallbackF v fuel s = (scanPiecesF fuel s).flatMap fun o =>
        match o with
        | some u =>
          match assocFind? v.token_to_id u with
          | some id => [id]
          | none => unkPiece v
        | none => unkPiece v := by
  intro fuel
  induction fuel with
  | zero =>
    intro s
    cases s with
    | nil => rfl
    | cons c rest => rfl
  | succ fuel ih =>
    intro s
    cases s with
    | nil => rfl
    | cons c rest =>
      by_cases h0 : utf8_len_char (c :: rest) = 0 <;>
        simp only [charFallbackF, scanPiecesF, h0, if_true, if_false, ite_true, ite_false,
          List.flatMap_cons, ih]

theorem charFallback_eq_perScan (v : SanaVocab) (s : Str) :
    charFallback v s = perScanIds v s := by
  rw [charFallback, perScanIds, scanPieces, charFallbackF_eq_scan]

def vocabBoot : SanaVocab :=
  { token_to_id := token_to_id_of [[97]]
    id_to_token := [[97]]
    id_to_score := []
    bos_token_id := -1
    eos_token_id := -1
    unk_token_id := 7
    type := VocabType.BPE
    bpe_ranks := [] }

/-- Claim C6 is refuted as stated: on the bootstrap store `vocabBoot`
(no merge ranks, 1 < 256 vocabulary entries, `unk_token_id = 7`), the
input consisting of the single malformed byte 0x80 has no codepoints at
all, so the per-codepoint id sequence is empty, yet `tokenize_bpe`
emits the unknown id once for the malformed byte. -/
theorem bpe_bootstrap_cex :
    vocabBoot.bpe_ranks = [] ∧ vocabBoot.id_to_token.length < 256 ∧
      codepoints [128] = [] ∧ perCodepointIds vocabBoot [128] = [] ∧
      vocabBoot.tokenize_bpe [128] = [7] ∧
      vocabBoot.tokenize_bpe [128] ≠ perCodepointIds vocabBoot [128] := by
  refine ⟨by decide, by decide, by decide, by decide, by decide, by decide⟩

/-- Claim C6, amended: for every BPE store with an empty merge-rank table
and fewer than 256 vocabulary entries, and every input text, BPE
tokenization skips pre-tokenization and merging entirely — the output is
exactly the scan of the text: each decoded codepoint mapped to its
vocabulary id, with unmapped codepoints replaced by `unk_token_id` when it
is set and dropped when it is unset, and each malformed byte likewise
contributing `unk_token_id` when set and nothing when unset
(`perScanIds`). -/
theorem bpe_bootstrap_output (v : SanaVocab) (text : Str)
    (hr : v.bpe_ranks = []) (hs : v.id_to_token.length < 256) :
    v.tokenize_bpe text = perScanIds v text := by
  unfold SanaVocab.tokenize_bpe
  by_cases ht : text = []
  · subst ht
    rfl
  · rw [if_neg ht, if_pos ⟨hr, hs⟩]
    exact charFallback_eq_perScan v text

theorem bpe_bootstrap_output_witness :
    vocabBoot.bpe_ranks = [] ∧ vocabBoot.id_to_token.length < 256 ∧
      vocabBoot.tokenize_bpe [97, 98, 97] = perScanIds vocabBoot [97, 98, 97] ∧
      vocabBoot.tokenize_bpe [97, 98, 97] = [0, 7, 0] := by
  refine ⟨by decide, by decide, ?_, by decide⟩
  exact bpe_bootstrap_output vocabBoot [97, 98, 97] (by decide) (by decide)

/-! ### Pointwise characterisation of the merge application -/

theorem nthSym_cons_zero (a : SpmSymbol) (s : List SpmSymbol) : nthSym (a :: s) 0 = a := rfl

theorem nthSym_cons_succ (a : SpmSymbol) (s : List SpmSymbol) (k : Nat) :
    nthSym (a :: s) (k + 1) = nthSym s k := rfl

theorem nthSym_set_self : ∀ (s : List SpmSymbol) (k : Nat) (x : SpmSymbol),
    k < s.length → nthSym (s.set k x) k = x := by
  intro s
  induction s with
  | nil => intro k x h; simp at h
  | cons a s ih =>
    intro k x h
    cases k with
    | zero => rfl
    | succ k => exact ih k x (by simpa using h)

theorem nthSym_set_ne : ∀ (s : List SpmSymbol) (m k : Nat) (x : SpmSymbol),
    m ≠ k → nthSym (s.set m x) k = nthSym s k := by
  intro s
  induction s with
  | nil => intro m k x _; cases m <;> rfl
  | cons a s ih =>
    intro m k x h
    cases m with
    | zero =>
      cases k with
      | zero => exact absurd rfl h
      | succ k => rfl
    | succ m =>
      cases k with
      | zero => rfl
      | succ k => exact ih m k x (by omega)

theorem stage1_length (s : List SpmSymbol) (b : SpmBigram) :
    (spmMergeStage1 s b).length = s.length := by
  simp [spmMergeStage1]

theorem stage2_length (s1 : List SpmSymbol) (b : SpmBigram) :
    (spmMergeStage2 s1 b).length = s1.length := by
  simp [spmMergeStage2]

theorem applyMerge_length (s : List SpmSymbol) (b : SpmBigram) :
    (spmApplyMerge s b).length = s.length := by
  unfold spmApplyMerge
  split_ifs <;> simp [stage2_length, stage1_length]

theorem stage1_nth_self (s : List SpmSymbol) (b : SpmBigram) (hl : b.left < s.length) :
    nthSym (spmMergeStage1 s b) b.left =
      { nthSym s b.left with
        n := (nthSym s b.left).n + (nthSym s b.right).n,
        next := (nthSym s b.right).next } := by
  unfold spmMergeStage1
  exact nthSym_set_self _ _ _ hl

theorem stage1_nth_ne (s : List SpmSymbol) (b : SpmBigram) (k : Nat) (hk : k ≠ b.left) :
    nthSym (spmMergeStage1 s b) k = nthSym s k := by
  unfold spmMergeStage1
  exact nthSym_set_ne _ _ _ _ (fun hh => hk hh.symm)

theorem stage2_nth_self (s1 : List SpmSymbol) (b : SpmBigram) (hr : b.right < s1.length) :
    nthSym (spmMergeStage2 s1 b) b.right = { nthSym s1 b.right with n := 0 } := by
  unfold spmMergeStage2
  exact nthSym_set_self _ _ _ hr

theorem stage2_nth_ne (s1 : List SpmSymbol) (b : SpmBigram) (k : Nat) (hk : k ≠ b.right) :
    nthSym (spmMergeStage2 s1 b) k = nthSym s1 k := by
  unfold spmMergeStage2
  exact nthSym_set_ne _ _ _ _ (fun hh => hk hh.symm)

theorem applyMerge_nth (s : List SpmSymbol) (b : SpmBigram) (k : Nat) :
    nthSym (spmApplyMerge s b) k =
      if 0 ≤ (nthSym s b.right).next ∧ (nthSym s b.right).next.toNat < s.length ∧
          k = (nthSym s b.right).next.toNat then
        { nthSym (spmMergeStage2 (spmMergeStage1 s b) b) k with prev := (b.left : Int) }
      else nthSym (spmMergeStage2 (spmMergeStage1 s b) b) k := by
  unfold spmApplyMerge
  have hlen : (spmMergeStage2 (spmMergeStage1 s b) b).length = s.length := by
    rw [stage2_length, stage1_length]
  split_ifs with h1 h2 h2
  · obtain ⟨_, _, hk⟩ := h2
    subst hk
    exact nthSym_set_self _ _ _ (by omega)
  · push_neg at h2
    have hk : (nthSym s b.right).next.toNat ≠ k := by
      intro hh
      exact absurd hh.symm (h2 h1.1 (by omega))
    exact nthSym_set_ne _ _ _ _ hk
  · rw [hlen] at h1
    exact absurd ⟨h2.1, h2.2.1⟩ h1
  · rfl

theorem applyMerge_n (s : List SpmSymbol) (b : SpmBigram)
    (hl : b.left < s.length) (hr : b.right < s.length) (k : Nat) :
    (nthSym (spmApplyMerge s b) k).n =
      if k = b.right then 0
      else if k = b.left then (nthSym s b.left).n + (nthSym s b.right).n
      else (nthSym s k).n := by
  have hbase : (nthSym (spmMergeStage2 (spmMergeStage1 s b) b) k).n =
      if k = b.right then 0
      else if k = b.left then (nthSym s b.left).n + (nthSym s b.right).n
      else (nthSym s k).n := by
    by_cases hkr : k = b.right
    · subst hkr
      rw [stage2_nth_self _ _ (by rw [stage1_length]; exact hr), if_pos rfl]
    · rw [stage2_nth_ne _ _ _ hkr, if_neg hkr]
      by_cases hkl : k = b.left
      · subst hkl
        rw [stage1_nth_self _ _ hl, if_pos rfl]
      · rw [stage1_nth_ne _ _ _ hkl, if_neg hkl]
  rw [applyMerge_nth]
  by_cases hcond : 0 ≤ (nthSym s b.right).next ∧ (nthSym s b.right).next.toNat < s.length ∧
      k = (nthSym s b.right).next.toNat
  · rw [if_pos hcond]
    show (nthSym (spmMergeStage2 (spmMergeStage1 s b) b) k).n = _
    exact hbase
  · rw [if_neg hcond]
    exact hbase

theorem applyMerge_next (s : List SpmSymbol) (b : SpmBigram)
    (hl : b.left < s.length) (hr : b.right < s.length) (k : Nat) :
    (nthSym (spmApplyMerge s b) k).next =
      if k = b.left then (nthSym s b.right).next
      else (nthSym s k).next := by
  have hbase : (nthSym (spmMergeStage2 (spmMergeStage1 s b) b) k).next =
      if k = b.left then (nthSym s b.right).next
      else (nthSym s k).next := by
    by_cases hkr : k = b.right
    · subst hkr
      rw [stage2_nth_self _ _ (by rw [stage1_length]; exact hr)]
      by_cases hkl : b.right = b.left
      · rw [if_pos hkl]
        show (nthSym (spmMergeStage1 s b) b.right).next = _
        rw [hkl, stage1_nth_self _ _ hl]
        show (nthSym s b.right).next = (nthSym s b.left).next
        rw [hkl]
      · rw [if_neg hkl, stage1_nth_ne _ _ _ hkl]
    · rw [stage2_nth_ne _ _ _ hkr]
      by_cases hkl : k = b.left
      · subst hkl
        rw [if_pos rfl, stage1_nth_self _ _ hl]
      · rw [if_neg hkl, stage1_nth_ne _ _ _ hkl]
  rw [applyMerge_nth]
  by_cases hcond : 0 ≤ (nthSym s b.right).next ∧ (nthSym s b.right).next.toNat < s.length ∧
      k = (nthSym s b.right).next.toNat
  · rw [if_pos hcond]
    show (nthSym (spmMergeStage2 (spmMergeStage1 s b) b) k).next = _
    exact hbase
  · rw [if_neg hcond]
    exact hbase

theorem applyMerge_start (s : List SpmSymbol) (b : SpmBigram)
    (hl : b.left < s.length) (hr : b.right < s.length) (k : Nat) :
    (nthSym (spmApplyMerge s b) k).start = (nthSym s k).start := by
  have hbase : (nthSym (spmMergeStage2 (spmMergeStage1 s b) b) k).start =
      (nthSym s k).start := by
    by_cases hkr : k = b.right
    · subst hkr
      rw [stage2_nth_self _ _ (by rw [stage1_length]; exact hr)]
      by_cases hkl : b.right = b.left
      · rw [hkl]
        rw [stage1_nth_self _ _ hl]
      · rw [stage1_nth_ne _ _ _ hkl]
    · rw [stage2_nth_ne _ _ _ hkr]
      by_cases hkl : k = b.left
      · subst hkl
        rw [stage1_nth_self _ _ hl]
      · rw [stage1_nth_ne _ _ _ hkl]
  rw [applyMerge_nth]
  by_cases hcond : 0 ≤ (nthSym s b.right).next ∧ (nthSym s b.right).next.toNat < s.length ∧
      k = (nthSym s b.right).next.toNat
  · rw [if_pos hcond]
    show (nthSym (spmMergeStage2 (spmMergeStage1 s b) b) k).start = _
    exact hbase
  · rw [if_neg hcond]
    exact hbase

theorem applyMerge_prev (s : List SpmSymbol) (b : SpmBigram)
    (hl : b.left < s.length) (hr : b.right < s.length) (k : Nat) :
    (nthSym (spmApplyMerge s b) k).prev =
      if 0 ≤ (nthSym s b.right).next ∧ (nthSym s b.right).next.toNat < s.length ∧
          k = (nthSym s b.right).next.toNat then (b.left : Int)
      else (nthSym s k).prev := by
  have hbase : (nthSym (spmMergeStage2 (spmMergeStage1 s b) b) k).prev =
      (nthSym s k).prev := by
    by_cases hkr : k = b.right
    · subst hkr
      rw [stage2_nth_self _ _ (by rw [stage1_length]; exact hr)]
      by_cases hkl : b.right = b.left
      · rw [hkl]
        rw [stage1_nth_self _ _ hl]
      · rw [stage1_nth_ne _ _ _ hkl]
    · rw [stage2_nth_ne _ _ _ hkr]
      by_cases hkl : k = b.left
      · subst hkl
        rw [stage1_nth_self _ _ hl]
      · rw [stage1_nth_ne _ _ _ hkl]
  rw [applyMerge_nth]
  by_cases hcond : 0 ≤ (nthSym s b.right).next ∧ (nthSym s b.right).next.toNat < s.length ∧
      k = (nthSym s b.right).next.toNat
  · rw [if_pos hcond, if_pos hcond]
  · rw [if_neg hcond, if_neg hcond]
    exact hbase

/-! ### Well-formed UTF-8 units -/

/-- All members are well-formed codepoint units. -/
def GoodUnits (us : List Str) : Prop := ∀ u ∈ us, GoodUnit u = true

theorem goodUnit_ne_nil {u : Str} (hu : GoodUnit u = true) : u ≠ [] := by
  cases u with
  | nil => simp [GoodUnit] at hu
  | cons c rest => simp

theorem goodUnit_length_pos {u : Str} (hu : GoodUnit u = true) : 1 ≤ u.length := by
  cases u with
  | nil => simp [GoodUnit] at hu
  | cons c rest => simp

theorem utf8_goodUnit (u rest : Str) (hu : GoodUnit u = true) :
    utf8_len_char (u ++ rest) = u.length := by
  cases u with
  | nil => simp [GoodUnit] at hu
  | cons c tail =>
    simp only [GoodUnit, Bool.and_eq_true, decide_eq_true_eq] at hu
    obtain ⟨⟨hc, hlead⟩, _⟩ := hu
    rw [List.cons_append, utf8_len_char]
    rw [leadLen] at hlead
    split_ifs at hlead with h1 h2 h3 h4
    · have ht : tail = [] := by
        cases tail with
        | nil => rfl
        | cons a t => simp at hlead
      subst ht
      rw [if_pos h1]
      rfl
    · have htl : tail.length = 1 := by omega
      rw [if_neg h1, if_pos ⟨by simp [htl], h2⟩]
      simp [htl]
    · have htl : tail.length = 2 := by omega
      rw [if_neg h1, if_neg (by simp [h2]), if_pos ⟨by simp [htl], h3⟩]
      simp [htl]
    · have htl : tail.length = 3 := by omega
      rw [if_neg h1, if_neg (by simp [h2]), if_neg (by simp [h3]),
        if_pos ⟨by simp [htl], h4⟩]
      simp [htl]

/-- The byte offset of unit `t` inside the concatenation. -/
def offU (us : List Str) (t : Nat) : Nat := ((us.take t).flatten).length

/-- The byte string of units `[t, t + c)`. -/
def segU (us : List Str) (t c : Nat) : Str := ((us.drop t).take c).flatten

theorem offU_zero (us : List Str) : offU us 0 = 0 := rfl

theorem offU_cons_succ (u : Str) (us : List Str) (t : Nat) :
    offU (u :: us) (t + 1) = u.length + offU us t := by
  simp [offU]

theorem flatten_drop_offU : ∀ (t : Nat) (us : List Str),
    (us.flatten).drop (offU us t) = (us.drop t).flatten := by
  intro t
  induction t with
  | zero => intro us; rfl
  | succ t ih =>
    intro us
    cases us with
    | nil => rfl
    | cons u us =>
      rw [offU_cons_succ, List.flatten_cons, List.drop_succ_cons]
      rw [List.drop_append, ih]

theorem segU_append (us : List Str) (t c1 c2 : Nat) :
    segU us t (c1 + c2) = segU us t c1 ++ segU us (t + c1) c2 := by
  unfold segU
  rw [List.take_add, List.flatten_append, List.drop_drop]

theorem segU_add_length (us : List Str) (t c1 c2 : Nat) :
    (segU us t c1).length + (segU us (t + c1) c2).length = (segU us t (c1 + c2)).length := by
  rw [segU_append, List.length_append]

theorem piece_at (us : List Str) (t c : Nat) :
    ((us.flatten).drop (offU us t)).take (segU us t c).length = segU us t c := by
  rw [flatten_drop_offU]
  have hsplit : (us.drop t).flatten = segU us t c ++ ((us.drop t).drop c).flatten := by
    rw [segU, ← List.flatten_append, List.take_append_drop]
  rw [hsplit, List.take_left]

theorem mem_segU_units (us : List Str) (t c : Nat) (u : Str)
    (hu : u ∈ (us.drop t).take c) : u ∈ us :=
  List.mem_of_mem_drop (List.mem_of_mem_take hu)

theorem segU_pos (us : List Str) (hus : GoodUnits us) (t c : Nat)
    (ht : t < us.length) (hc : 1 ≤ c) : 1 ≤ (segU us t c).length := by
  have hne : us.drop t ≠ [] := by
    simp only [ne_eq, List.drop_eq_nil_iff]
    omega
  obtain ⟨u, rest, hrest⟩ := List.exists_cons_of_ne_nil hne
  unfold segU
  rw [hrest]
  cases c with
  | zero => omega
  | succ c =>
    rw [List.take_succ_cons, List.flatten_cons, List.length_append]
    have hu : u ∈ us := by
      apply List.mem_of_mem_drop (l := us) (n := t)
      rw [hrest]
      simp
    have := goodUnit_length_pos (hus u hu)
    omega

theorem wellFormed_units : ∀ (fuel : Nat) (s : Str), s.length ≤ fuel →
    wellFormedF fuel s = true →
    ∃ us : List Str, GoodUnits us ∧ s = us.flatten ∧ (s ≠ [] → us ≠ []) := by
  intro fuel
  induction fuel with
  | zero =>
    intro s hlen _
    have hs : s = [] := by
      cases s with
      | nil => rfl
      | cons c r => simp at hlen
    exact ⟨[], by intro u hu; simp at hu, by simp [hs], by simp [hs]⟩
  | succ fuel ih =>
    intro s hlen hwf
    cases s with
    | nil => exact ⟨[], by intro u hu; simp at hu, by simp, by simp⟩
    | cons c rest =>
      rw [wellFormedF] at hwf
      simp only [Bool.and_eq_true, decide_eq_true_eq] at hwf
      obtain ⟨⟨⟨⟨hc, hL⟩, hlen1⟩, hall⟩, hrec⟩ := hwf
      obtain ⟨us', hgood', heq', _⟩ := ih (rest.drop (leadLen c - 1))
        (by simp only [List.length_drop]; simp at hlen; omega) hrec
      refine ⟨(c :: rest.take (leadLen c - 1)) :: us', ?_, ?_, by simp⟩
      · intro u hu
        rcases List.mem_cons.mp hu with hu | hu
        · subst hu
          simp only [GoodUnit, Bool.and_eq_true, decide_eq_true_eq]
          refine ⟨⟨hc, ?_⟩, by simpa using hall⟩
          simp only [List.length_take]
          omega
        · exact hgood' u hu
      · rw [List.flatten_cons, ← heq']
        simp [List.take_append_drop]

theorem wellFormedBytes_units (s : Str) (h : wellFormedBytes s = true) :
    ∃ us : List Str, GoodUnits us ∧ s = us.flatten ∧ (s ≠ [] → us ≠ []) :=
  wellFormed_units s.length s le_rfl h

theorem codepointsF_flatten : ∀ (fuel : Nat) (us : List Str), GoodUnits us →
    (us.flatten).length ≤ fuel → codepointsF fuel us.flatten = us := by
  intro fuel
  induction fuel with
  | zero =>
    intro us hus hlen
    cases us with
    | nil => rfl
    | cons u us =>
      exfalso
      have := goodUnit_length_pos (hus u (by simp))
      simp only [List.flatten_cons, List.length_append] at hlen
      omega
  | succ fuel ih =>
    intro us hus hlen
    cases us with
    | nil => rfl
    | cons u us =>
      have hu := hus u (by simp)
      have hne : u ++ us.flatten ≠ [] := by
        have := goodUnit_length_pos hu
        intro hc
        rw [← List.length_eq_zero] at hc
        simp only [List.length_append] at hc
        omega
      rw [List.flatten_cons]
      obtain ⟨b, r, hbr⟩ := List.exists_cons_of_ne_nil hne
      have hstep : codepointsF (fuel + 1) (b :: r) =
          if utf8_len_char (b :: r) = 0 then codepointsF fuel ((b :: r).drop 1)
          else (b :: r).take (utf8_len_char (b :: r)) ::
            codepointsF fuel ((b :: r).drop (utf8_len_char (b :: r))) := rfl
      rw [hbr, hstep, ← hbr]
      rw [utf8_goodUnit u us.flatten hu]
      have hupos := goodUnit_length_pos hu
      rw [if_neg (by omega)]
      rw [List.take_left, List.drop_left]
      rw [ih us (fun x hx => hus x (by simp [hx]))
        (by simp only [List.flatten_cons, List.length_append] at hlen; omega)]

theorem codepoints_flatten (us : List Str) (hus : GoodUnits us) :
    codepoints us.flatten = us :=
  codepointsF_flatten (us.flatten).length us hus le_rfl

/-- The per-unit token mapping of the fallback loop. -/
def unitIds (v : SanaVocab) (us : List Str) : List Int :=
  us.flatMap fun u =>
    match assocFind? v.token_to_id u with
    | some id => [id]
    | none => unkPiece v

theorem charFallbackF_flatten (v : SanaVocab) : ∀ (fuel : Nat) (us : List Str),
    GoodUnits us → (us.flatten).length ≤ fuel →
    charFallbackF v fuel us.flatten = unitIds v us := by
  intro fuel
  induction fuel with
  | zero =>
    intro us hus hlen
    cases us with
    | nil => rfl
    | cons u us =>
      exfalso
      have := goodUnit_length_pos (hus u (by simp))
      simp only [List.flatten_cons, List.length_append] at hlen
      omega
  | succ fuel ih =>
    intro us hus hlen
    cases us with
    | nil => rfl
    | cons u us =>
      have hu := hus u (by simp)
      have hne : u ++ us.flatten ≠ [] := by
        have := goodUnit_length_pos hu
        intro hc
        rw [← List.length_eq_zero] at hc
        simp only [List.length_append] at hc
        omega
      rw [List.flatten_cons]
      obtain ⟨b, r, hbr⟩ := List.exists_cons_of_ne_nil hne
      have hstep : charFallbackF v (fuel + 1) (b :: r) =
          if utf8_len_char (b :: r) = 0 then
            unkPiece v ++ charFallbackF v fuel ((b :: r).drop 1)
          else
            (match assocFind? v.token_to_id ((b :: r).take (utf8_len_char (b :: r))) with
             | some id => [id]
             | none => unkPiece v) ++
              charFallbackF v fuel ((b :: r).drop (utf8_len_char (b :: r))) := rfl
      rw [hbr, hstep, ← hbr]
      rw [utf8_goodUnit u us.flatten hu]
      have hupos := goodUnit_length_pos hu
      rw [if_neg (by omega)]
      rw [List.take_left, List.drop_left]
      rw [ih us (fun x hx => hus x (by simp [hx]))
        (by simp only [List.flatten_cons, List.length_append] at hlen; omega)]
      simp [unitIds]

theorem charFallback_flatten (v : SanaVocab) (us : List Str) (hus : GoodUnits us) :
    charFallback v us.flatten = unitIds v us :=
  charFallbackF_flatten v (us.flatten).length us hus le_rfl

/-! ### The SPM chain invariant

`Cover us s t L` states that, starting at symbol index `L.head` and unit
index `t`, the `next`-linked symbols listed in `L` are alive and partition
the units `[t, us.length)` of the text into consecutive unit-aligned spans,
with consistent back links and strictly increasing symbol indices. -/

inductive Cover (us : List Str) (s : List SpmSymbol) : Nat → List Nat → Prop
  | last (i t c : Nat) :
      i < s.length → 1 ≤ c → t + c = us.length →
      (nthSym s i).start = offU us t → (nthSym s i).n = (segU us t c).length →
      (nthSym s i).next = -1 →
      Cover us s t [i]
  | cons (i t c j : Nat) (L : List Nat) :
      i < s.length → 1 ≤ c →
      (nthSym s i).start = offU us t → (nthSym s i).n = (segU us t c).length →
      (nthSym s i).next = (j : Int) → i < j → (nthSym s j).prev = (i : Int) →
      L.head? = some j →
      Cover us s (t + c) L →
      Cover us s t (i :: L)

theorem cover_ne_nil {us : List Str} {s : List SpmSymbol} {t : Nat} {L : List Nat}
    (h : Cover us s t L) : L ≠ [] := by
  cases h <;> simp

theorem cover_mem_lt {us : List Str} {s : List SpmSymbol} {t : Nat} {L : List Nat}
    (h : Cover us s t L) : ∀ k ∈ L, k < s.length := by
  induction h with
  | last i t c hi _ _ _ _ _ =>
    intro k hk
    simp only [List.mem_singleton] at hk
    subst hk
    exact hi
  | cons i t c j L hi _ _ _ _ _ _ _ _ ih =>
    intro k hk
    rcases List.mem_cons.mp hk with hk | hk
    · subst hk; exact hi
    · exact ih k hk

theorem cover_head_le {us : List Str} {s : List SpmSymbol} {t : Nat} {L : List Nat}
    (h : Cover us s t L) : ∀ k ∈ L, ∀ i, L.head? = some i → i ≤ k := by
  induction h with
  | last i t c =>
    intro k hk i' hi'
    simp only [List.mem_singleton] at hk
    simp only [List.head?_cons, Option.some.injEq] at hi'
    omega
  | cons i t c j L hi _ _ _ _ hij _ hheadL _ ih =>
    intro k hk i' hi'
    simp only [List.head?_cons, Option.some.injEq] at hi'
    subst hi'
    rcases List.mem_cons.mp hk with hk | hk
    · omega
    · have := ih k hk j hheadL
      omega

theorem cover_length_le {us : List Str} {s : List SpmSymbol} {t : Nat} {L : List Nat}
    (h : Cover us s t L) : ∀ i, L.head? = some i → L.length + i ≤ s.length := by
  induction h with
  | last i t c hi =>
    intro i' hi'
    simp only [List.head?_cons, Option.some.injEq] at hi'
    subst hi'
    simp only [List.length_singleton]
    omega
  | cons i t c j L hi _ _ _ _ hij _ hheadL _ ih =>
    intro i' hi'
    simp only [List.head?_cons, Option.some.injEq] at hi'
    subst hi'
    have := ih j hheadL
    simp only [List.length_cons]
    omega

theorem cover_t_lt {us : List Str} {s : List SpmSymbol} {t : Nat} {L : List Nat}
    (h : Cover us s t L) : t < us.length := by
  induction h with
  | last i t c _ hc hm => omega
  | cons i t c j L _ hc _ _ _ _ _ _ _ ih => omega

theorem cover_n_pos {us : List Str} {s : List SpmSymbol} {t : Nat} {L : List Nat}
    (hus : GoodUnits us) (h : Cover us s t L) : ∀ k ∈ L, 1 ≤ (nthSym s k).n := by
  induction h with
  | last i t c hi hc hm hst hn hnext =>
    intro k hk
    simp only [List.mem_singleton] at hk
    subst hk
    rw [hn]
    exact segU_pos us hus t c (by omega) hc
  | cons i t c j L hi hc hst hn hnext hij hprev hheadL hsub ih =>
    intro k hk
    rcases List.mem_cons.mp hk with hk | hk
    · subst hk
      rw [hn]
      exact segU_pos us hus t c (by have := cover_t_lt hsub; omega) hc
    · exact ih k hk

theorem cover_frame {us : List Str} {t : Nat} {L : List Nat} :
    ∀ {s s' : List SpmSymbol}, Cover us s t L →
    s'.length = s.length →
    (∀ k, L.head? = some k → (nthSym s' k).start = (nthSym s k).start ∧
        (nthSym s' k).n = (nthSym s k).n ∧ (nthSym s' k).next = (nthSym s k).next) →
    (∀ k ∈ L, L.head? ≠ some k → nthSym s' k = nthSym s k) →
    Cover us s' t L := by
  intro s s' h
  induction h with
  | last i t c hi hc hm hst hn hnext =>
    intro hlen hhead _
    obtain ⟨h1, h2, h3⟩ := hhead i rfl
    exact Cover.last i t c (by omega) hc hm (by rw [h1, hst]) (by rw [h2, hn])
      (by rw [h3, hnext])
  | cons i t c j L hi hc hst hn hnext hij hprev hheadL hsub ih =>
    intro hlen hhead hfull
    have hjmem : j ∈ i :: L := by
      right
      exact List.mem_of_mem_head? hheadL
    have hjfull : nthSym s' j = nthSym s j := by
      apply hfull j hjmem
      simp only [List.head?_cons, ne_eq, Option.some.injEq]
      omega
    obtain ⟨h1, h2, h3⟩ := hhead i rfl
    refine Cover.cons i t c j L (by omega) hc (by rw [h1, hst]) (by rw [h2, hn])
      (by rw [h3, hnext]) hij (by rw [hjfull, hprev]) hheadL ?_
    apply ih hlen
    · intro k hk
      rw [hheadL] at hk
      simp only [Option.some.injEq] at hk
      subst hk
      rw [hjfull]
      exact ⟨rfl, rfl, rfl⟩
    · intro k hk hkne
      apply hfull k (by right; exact hk)
      simp only [List.head?_cons, ne_eq, Option.some.injEq]
      have := cover_head_le hsub k hk j hheadL
      omega

theorem cover_pairwise {us : List Str} {s : List SpmSymbol} {t : Nat} {L : List Nat}
    (h : Cover us s t L) : L.Pairwise (· < ·) := by
  induction h with
  | last i t c => simp
  | cons i t c j L hi hc hst hn hnext hij hprev hheadL hsub ih =>
    rw [List.pairwise_cons]
    refine ⟨?_, ih⟩
    intro k hk
    have := cover_head_le hsub k hk j hheadL
    omega

theorem cover_node_inv {us : List Str} {s : List SpmSymbol} {t : Nat} {l : Nat}
    {M : List Nat} (h : Cover us s t (l :: M)) :
    ∃ c, 1 ≤ c ∧ l < s.length ∧ (nthSym s l).start = offU us t ∧
      (nthSym s l).n = (segU us t c).length ∧
      ((M = [] ∧ (nthSym s l).next = -1 ∧ t + c = us.length) ∨
        (∃ j' M', M = j' :: M' ∧ (nthSym s l).next = (j' : Int) ∧ l < j' ∧
          (nthSym s j').prev = (l : Int) ∧ Cover us s (t + c) M)) := by
  have hgen : ∀ L0, Cover us s t L0 → L0 = l :: M →
      ∃ c, 1 ≤ c ∧ l < s.length ∧ (nthSym s l).start = offU us t ∧
        (nthSym s l).n = (segU us t c).length ∧
        ((M = [] ∧ (nthSym s l).next = -1 ∧ t + c = us.length) ∨
          (∃ j' M', M = j' :: M' ∧ (nthSym s l).next = (j' : Int) ∧ l < j' ∧
            (nthSym s j').prev = (l : Int) ∧ Cover us s (t + c) M)) := by
    intro L0 h0
    cases h0
    case last =>
      rename_i i c hilen hc hnext hm hst hn
      intro hL0
      rw [List.cons.injEq] at hL0
      obtain ⟨hil, hM⟩ := hL0
      subst hil
      exact ⟨c, hc, hilen, hst, hn, Or.inl ⟨hM.symm, hnext, hm⟩⟩
    case cons =>
      rename_i i c j L hilen hc hnextj hij hprev hheadL hst hn hsub
      intro hL0
      rw [List.cons.injEq] at hL0
      obtain ⟨hil, hM⟩ := hL0
      subst hil
      subst hM
      obtain ⟨j', M', hM2⟩ : ∃ j' M', L = j' :: M' := by
        cases L with
        | nil => simp at hheadL
        | cons x xs => exact ⟨x, xs, rfl⟩
      have hj : j = j' := by
        rw [hM2] at hheadL
        exact (by simpa using hheadL : j' = j).symm
      subst hj
      exact ⟨c, hc, hilen, hst, hn, Or.inr ⟨j, M', hM2, hnextj, hij, hprev, hsub⟩⟩
  exact hgen (l :: M) h rfl

theorem cover_decomp_node {us : List Str} :
    ∀ (A : List Nat) {s : List SpmSymbol} {t : Nat} {l : Nat} {M : List Nat},
    Cover us s t (A ++ l :: M) →
    ∃ tl, t ≤ tl ∧ Cover us s tl (l :: M) := by
  intro A
  induction A with
  | nil =>
    intro s t l M h
    rw [List.nil_append] at h
    exact ⟨t, le_rfl, h⟩
  | cons a A' ih =>
    intro s t l M h
    rw [List.cons_append] at h
    obtain ⟨c, _, _, _, _, hcases⟩ := cover_node_inv h
    rcases hcases with ⟨hM, _, _⟩ | ⟨j', M', hM, _, _, _, hsub⟩
    · exact absurd hM (by simp)
    · obtain ⟨tl, htl, hcov⟩ := ih hsub
      exact ⟨tl, by omega, hcov⟩

theorem applyMerge_nth_away (s : List SpmSymbol) (b : SpmBigram) (k : Nat)
    (hk1 : k ≠ b.left) (hk2 : k ≠ b.right)
    (hk3 : ¬(0 ≤ (nthSym s b.right).next ∧ (nthSym s b.right).next.toNat < s.length ∧
      k = (nthSym s b.right).next.toNat)) :
    nthSym (spmApplyMerge s b) k = nthSym s k := by
  rw [applyMerge_nth, if_neg hk3, stage2_nth_ne _ _ _ hk2, stage1_nth_ne _ _ _ hk1]

theorem cover_merge {us : List Str} (b : SpmBigram) :
    ∀ (A : List Nat) {s : List SpmSymbol} {t : Nat} {B : List Nat},
    b.left < b.right →
    Cover us s t (A ++ b.left :: b.right :: B) →
    Cover us (spmApplyMerge s b) t (A ++ b.left :: B) := by
  intro A
  induction A with
  | nil =>
    intro s t B hlr h
    rw [List.nil_append] at h
    rw [List.nil_append]
    obtain ⟨c, hc, hllen, hst, hn, hcases⟩ := cover_node_inv h
    rcases hcases with ⟨hM, _, _⟩ | ⟨j0, M0, hM0, hnext, _, hprev, hsub⟩
    · exact absurd hM (by simp)
    · obtain ⟨hj0 , hM0'⟩ : j0 = b.right ∧ M0 = B := by
        rw [List.cons.injEq] at hM0
        exact ⟨hM0.1.symm, hM0.2.symm⟩
      subst hj0
      subst hM0'
      obtain ⟨c', hc', hrlen, hst', hn', hcases'⟩ := cover_node_inv hsub
      rcases hcases' with ⟨hB, hnext', hm'⟩ | ⟨j', M', hB, hnext', hij', hprev', hsub'⟩
      · subst hB
        apply Cover.last b.left t (c + c') (by rw [applyMerge_length]; exact hllen)
          (by omega) (by omega)
        · rw [applyMerge_start s b hllen hrlen, hst]
        · rw [applyMerge_n s b hllen hrlen]
          rw [if_neg (by omega), if_pos rfl, hn, hn']
          exact segU_add_length us t c c'
        · rw [applyMerge_next s b hllen hrlen, if_pos rfl, hnext']
      · subst hB
        have hj'len : j' < s.length := by
          apply cover_mem_lt hsub' j'
          simp
        apply Cover.cons b.left t (c + c') j' (j' :: M')
          (by rw [applyMerge_length]; exact hllen) (by omega)
        · rw [applyMerge_start s b hllen hrlen, hst]
        · rw [applyMerge_n s b hllen hrlen, if_neg (by omega), if_pos rfl, hn, hn']
          exact segU_add_length us t c c'
        · rw [applyMerge_next s b hllen hrlen, if_pos rfl, hnext']
        · omega
        · rw [applyMerge_prev s b hllen hrlen]
          rw [if_pos (by rw [hnext']; exact ⟨by omega, by simpa using hj'len, by simp⟩)]
        · simp
        · have hassoc : t + (c + c') = t + c + c' := by omega
          rw [hassoc]
          apply cover_frame hsub' (by rw [applyMerge_length])
          · intro k hk
            simp only [List.head?_cons, Option.some.injEq] at hk
            subst hk
            refine ⟨applyMerge_start s b hllen hrlen j', ?_, ?_⟩
            · rw [applyMerge_n s b hllen hrlen j', if_neg (by omega), if_neg (by omega)]
            · rw [applyMerge_next s b hllen hrlen j', if_neg (by omega)]
          · intro k hk hkne
            have hkge : j' ≤ k := cover_head_le hsub' k hk j' (by simp)
            have hkj' : k ≠ j' := by
              intro hcc
              subst hcc
              exact hkne (by simp)
            apply applyMerge_nth_away
            · omega
            · omega
            · rw [hnext']
              rintro ⟨_, _, hc3⟩
              omega
  | cons a A' ih =>
    intro s t B hlr h
    rw [List.cons_append] at h
    obtain ⟨c, hc, halen, hsta, hna, hcases⟩ := cover_node_inv h
    rcases hcases with ⟨hM, _, _⟩ | ⟨j, M0, hM0, hnexta, hajlt, hprevj, hsub⟩
    · exact absurd hM (by simp)
    · -- hsub : Cover us s (t + c) (A' ++ b.left :: b.right :: B)
      have hpair := cover_pairwise hsub
      have hlmem : b.left ∈ A' ++ b.left :: b.right :: B := by simp
      have hrmem : b.right ∈ A' ++ b.left :: b.right :: B := by simp
      have hheadL : (A' ++ b.left :: b.right :: B).head? = some j := by
        rw [hM0]
        simp
      have hal : a < b.left := by
        have h1 := cover_head_le hsub b.left hlmem j hheadL
        omega
      have hllen : b.left < s.length := cover_mem_lt hsub b.left hlmem
      have hrlen : b.right < s.length := cover_mem_lt hsub b.right hrmem
      have hrsn : ((nthSym s b.right).next = -1) ∨
          (∃ j2 : Nat, (nthSym s b.right).next = (j2 : Int) ∧ b.right < j2) := by
        obtain ⟨tr, _, hcovr⟩ :=
          cover_decomp_node ((A' ++ [b.left]) : List Nat)
            (by rw [List.append_assoc, List.singleton_append]; exact hsub)
        obtain ⟨cr, _, _, _, _, hcases2⟩ := cover_node_inv hcovr
        rcases hcases2 with ⟨_, hnx, _⟩ | ⟨j2, M2, _, hnx, hj2, _, _⟩
        · exact Or.inl hnx
        · exact Or.inr ⟨j2, hnx, hj2⟩
      have haway : ∀ k, k < b.left →
          nthSym (spmApplyMerge s b) k = nthSym s k := by
        intro k hkl
        apply applyMerge_nth_away
        · omega
        · omega
        · rcases hrsn with hnx | ⟨j2, hnx, hj2⟩
          · rw [hnx]
            rintro ⟨hc1, _, _⟩
            omega
          · rw [hnx]
            rintro ⟨_, _, hc3⟩
            omega
      have ha_away : nthSym (spmApplyMerge s b) a = nthSym s a := haway a hal
      apply Cover.cons a t c j (A' ++ b.left :: B)
        (by rw [applyMerge_length]; exact halen) hc
      · rw [ha_away, hsta]
      · rw [ha_away, hna]
      · rw [ha_away, hnexta]
      · exact hajlt
      · -- prev of j is unchanged: j < b.right and j is not the fix-up target
        by_cases hjl : j = b.left
        · subst hjl
          rw [applyMerge_prev s b hllen hrlen]
          rw [if_neg ?_, hprevj]
          rcases hrsn with hnx | ⟨j2, hnx, hj2⟩
          · rw [hnx]
            rintro ⟨hc1, _, _⟩
            omega
          · rw [hnx]
            rintro ⟨_, _, hc3⟩
            omega
        · have hjlt : j < b.left := by
            have h1 := cover_head_le hsub b.left hlmem j hheadL
            omega
          rw [haway j hjlt, hprevj]
      · -- head of the new tail
        cases A' with
        | nil =>
          have hjb : b.left = j := by simpa using hheadL
          simpa using hjb
        | cons x xs =>
          have hjx : x = j := by simpa using hheadL
          simpa using hjx
      · exact ih hlr hsub

/-! ### The queue invariant -/

/-- The per-candidate queue invariant: indices ordered and in bounds, and
there are original lengths `nl`, `nr` (the symbol lengths at push time,
summing to the recorded size) below the current lengths, such that if both
symbols still have exactly their original lengths then the pair is still
link-adjacent.  Symbol lengths only grow or drop to zero, so this is
preserved by merges and makes the re-validation test imply adjacency. -/
def Qok (s : List SpmSymbol) (b : SpmBigram) : Prop :=
  b.left < b.right ∧ b.right < s.length ∧
  ∃ nl nr, 1 ≤ nl ∧ 1 ≤ nr ∧ nl + nr = b.size ∧
    ((nthSym s b.left).n = 0 ∨ nl ≤ (nthSym s b.left).n) ∧
    ((nthSym s b.right).n = 0 ∨ nr ≤ (nthSym s b.right).n) ∧
    ((nthSym s b.left).n = nl ∧ (nthSym s b.right).n = nr →
      (nthSym s b.left).next = (b.right : Int))

theorem qok_valid_adjacent {s : List SpmSymbol} {b : SpmBigram} (hq : Qok s b)
    (h1 : (nthSym s b.left).n ≠ 0) (h2 : (nthSym s b.right).n ≠ 0)
    (h3 : (nthSym s b.left).n + (nthSym s b.right).n = b.size) :
    (nthSym s b.left).next = (b.right : Int) := by
  obtain ⟨hlr, hrlen, nl, nr, hnl, hnr, hsum, hcl, hcr, hadj⟩ := hq
  apply hadj
  omega

theorem qok_apply {s : List SpmSymbol} {b b' : SpmBigram} (hq : Qok s b) (hq' : Qok s b')
    (hv1 : (nthSym s b.left).n ≠ 0) (hv2 : (nthSym s b.right).n ≠ 0) :
    Qok (spmApplyMerge s b) b' := by
  obtain ⟨hlr, hrlen, _⟩ := hq
  have hllen : b.left < s.length := by omega
  obtain ⟨hlr', hrlen', nl, nr, hnl, hnr, hsum, hcl, hcr, hadj⟩ := hq'
  refine ⟨hlr', by rw [applyMerge_length]; exact hrlen', nl, nr, hnl, hnr, hsum, ?_, ?_, ?_⟩
  · rw [applyMerge_n s b hllen hrlen]
    by_cases h1 : b'.left = b.right
    · rw [if_pos h1]
      exact Or.inl rfl
    · rw [if_neg h1]
      by_cases h2 : b'.left = b.left
      · rw [if_pos h2]
        rw [h2] at hcl
        rcases hcl with hcl | hcl
        · exact absurd hcl hv1
        · right; omega
      · rw [if_neg h2]
        exact hcl
  · rw [applyMerge_n s b hllen hrlen]
    by_cases h1 : b'.right = b.right
    · rw [if_pos h1]
      exact Or.inl rfl
    · rw [if_neg h1]
      by_cases h2 : b'.right = b.left
      · rw [if_pos h2]
        rw [h2] at hcr
        rcases hcr with hcr | hcr
        · exact absurd hcr hv1
        · right; omega
      · rw [if_neg h2]
        exact hcr
  · intro ⟨hal, har⟩
    rw [applyMerge_n s b hllen hrlen] at hal har
    rw [applyMerge_next s b hllen hrlen]
    by_cases h1 : b'.left = b.right
    · rw [if_pos h1] at hal
      omega
    · rw [if_neg h1] at hal
      by_cases h2 : b'.left = b.left
      · rw [if_pos h2] at hal
        rw [h2] at hcl
        rcases hcl with hcl | hcl
        · exact absurd hcl hv1
        · omega
      · rw [if_neg h2] at hal
        rw [if_neg h2]
        by_cases h3 : b'.right = b.right
        · rw [if_pos h3] at har
          omega
        · rw [if_neg h3] at har
          by_cases h4 : b'.right = b.left
          · rw [if_pos h4] at har
            rw [h4] at hcr
            rcases hcr with hcr | hcr
            · exact absurd hcr hv1
            · omega
          · rw [if_neg h4] at har
            exact hadj ⟨hal, har⟩

theorem tryAdd_mem {v : SanaVocab} {text : Str} {s : List SpmSymbol}
    {q : List SpmBigram} {li ri : Int} {b' : SpmBigram}
    (hb' : b' ∈ try_add_bigram_spm v text s q li ri) :
    b' ∈ q ∨ (0 ≤ li ∧ 0 ≤ ri ∧ li.toNat < s.length ∧ ri.toNat < s.length ∧
      b'.left = li.toNat ∧ b'.right = ri.toNat ∧
      1 ≤ (nthSym s li.toNat).n ∧ 1 ≤ (nthSym s ri.toNat).n ∧
      b'.size = (nthSym s li.toNat).n + (nthSym s ri.toNat).n) := by
  unfold try_add_bigram_spm at hb'
  split_ifs at hb' with h1 h2
  · exact Or.inl hb'
  · exact Or.inl hb'
  · simp only [] at hb'
    split_ifs at hb' with h3
    · exact Or.inl hb'
    · push_neg at h1 h2 h3
      rcases hfind : assocFind? v.token_to_id
          ((text.drop (nthSym s li.toNat).start).take
            ((nthSym s li.toNat).n + (nthSym s ri.toNat).n)) with _ | id
      · rw [hfind] at hb'
        exact Or.inl hb'
      · rw [hfind] at hb'
        simp only [] at hb'
        split_ifs at hb' with h4
        · rcases List.mem_append.mp hb' with hb' | hb'
          · exact Or.inl hb'
          · simp only [List.mem_singleton] at hb'
            subst hb'
            exact Or.inr ⟨h2.1.1, h2.2.1, h2.1.2, h2.2.2, rfl, rfl,
              by omega, by omega, rfl⟩
        · exact Or.inl hb'

theorem qok_tryAdd {v : SanaVocab} {text : Str} {s : List SpmSymbol}
    {q : List SpmBigram} {li ri : Int}
    (hq : ∀ b ∈ q, Qok s b)
    (h : 0 ≤ li → 0 ≤ ri → li.toNat < s.length → ri.toNat < s.length →
      li.toNat < ri.toNat ∧ (nthSym s li.toNat).next = ri) :
    ∀ b ∈ try_add_bigram_spm v text s q li ri, Qok s b := by
  intro b hb
  rcases tryAdd_mem hb with hb | ⟨hli, hri, hlil, hril, hbl, hbr, hnl, hnr, hbs⟩
  · exact hq b hb
  · obtain ⟨hord, hnext⟩ := h hli hri hlil hril
    refine ⟨by omega, by omega, (nthSym s li.toNat).n, (nthSym s ri.toNat).n,
      hnl, hnr, by omega, ?_, ?_, ?_⟩
    · rw [hbl]
      right
      exact le_rfl
    · rw [hbr]
      right
      exact le_rfl
    · intro _
      rw [hbl, hnext, hbr]
      rw [Int.toNat_of_nonneg hri]

/-! ### The merge-loop invariant -/

/-- The merge-loop invariant: some live chain `L` headed at symbol 0 covers
the whole text, every index outside the chain is absorbed (`n = 0`),
symbol 0 has no back link, and every queued candidate satisfies `Qok`. -/
def SpmInv (us : List Str) (s : List SpmSymbol) (q : List SpmBigram) : Prop :=
  (∃ L, Cover us s 0 L ∧ L.head? = some 0 ∧
    ∀ k, k < s.length → k ∉ L → (nthSym s k).n = 0) ∧
  (nthSym s 0).prev = -1 ∧
  ∀ b ∈ q, Qok s b

theorem spmStep_inv {v : SanaVocab} {text : Str} {us : List Str}
    {s : List SpmSymbol} {q : List SpmBigram} {s' : List SpmSymbol}
    {q' : List SpmBigram} (hinv : SpmInv us s q)
    (hstep : spmStep v text s q = some (s', q')) : SpmInv us s' q' := by
  obtain ⟨⟨L, hcov, hheadL, hdead⟩, hprev0, hqok⟩ := hinv
  unfold spmStep at hstep
  rcases hpop : popMax q with _ | ⟨b, rest⟩
  · rw [hpop] at hstep
    exact absurd hstep (by simp)
  rw [hpop] at hstep
  obtain ⟨hperm, _⟩ := popMax_spec q b rest hpop
  have hbq : b ∈ q := hperm.mem_iff.mpr (by simp)
  have hrestq : ∀ c ∈ rest, c ∈ q := fun c hc => hperm.mem_iff.mpr (by simp [hc])
  simp only [] at hstep
  split_ifs at hstep with h1 h2
  · simp only [Option.some.injEq, Prod.mk.injEq] at hstep
    obtain ⟨hs1, hs2⟩ := hstep
    subst hs1
    subst hs2
    exact ⟨⟨L, hcov, hheadL, hdead⟩, hprev0, fun c hc => hqok c (hrestq c hc)⟩
  · push_neg at h2
    obtain ⟨hl, hr⟩ := h1
    obtain ⟨hn1, hn2, hns⟩ := h2
    simp only [Option.some.injEq, Prod.mk.injEq] at hstep
    obtain ⟨hs1, hs2⟩ := hstep
    subst hs1
    subst hs2
    have hqb := hqok b hbq
    have hlr : b.left < b.right := hqb.1
    have hadj : (nthSym s b.left).next = (b.right : Int) :=
      qok_valid_adjacent hqb hn1 hn2 hns
    have hblL : b.left ∈ L := by
      by_contra hc
      exact hn1 (hdead b.left hl hc)
    obtain ⟨A, M, hLAM⟩ := List.append_of_mem hblL
    subst hLAM
    obtain ⟨tl, htl0, hcovl⟩ := cover_decomp_node A hcov
    obtain ⟨c, hc1, hll2, hstl, hnl2, hcases⟩ := cover_node_inv hcovl
    rcases hcases with ⟨hMnil, hnextm1, hmtot⟩ | ⟨j', M', hM, hnextj, hlj, hprevj, hsubM⟩
    · rw [hadj] at hnextm1
      exact absurd hnextm1 (by omega)
    have hj' : j' = b.right := by
      rw [hadj] at hnextj
      omega
    subst hj'
    subst hM
    have hcovR : Cover us s (tl + c) (b.right :: M') := hsubM
    obtain ⟨c2, hc2a, hc2b, hc2c, hc2d, hcases2⟩ := cover_node_inv hcovR
    have hfix : ∀ k : Nat, 0 ≤ (nthSym s b.right).next ∧
        (nthSym s b.right).next.toNat < s.length ∧
        k = (nthSym s b.right).next.toNat → b.right < k := by
      rintro k ⟨hk0, hk1, hk2⟩
      rcases hcases2 with ⟨hm2, hnm1, hm3⟩ | ⟨j2, M2, hM2, hnj2, hrj2, hp2, hc2⟩
      · rw [hnm1] at hk0
        omega
      · rw [hnj2] at hk2
        omega
    have hcov' : Cover us (spmApplyMerge s b) 0 (A ++ b.left :: M') :=
      cover_merge b A hlr hcov
    refine ⟨⟨A ++ b.left :: M', hcov', ?_, ?_⟩, ?_, ?_⟩
    · cases A with
      | nil =>
        simp only [List.nil_append, List.head?_cons] at hheadL ⊢
        exact hheadL
      | cons a A0 =>
        simp only [List.cons_append, List.head?_cons] at hheadL ⊢
        exact hheadL
    · intro k hklen hknot
      rw [applyMerge_length] at hklen
      rw [applyMerge_n s b hl hr]
      by_cases hkr : k = b.right
      · rw [if_pos hkr]
      · rw [if_neg hkr]
        by_cases hkl : k = b.left
        · exfalso
          apply hknot
          rw [hkl]
          simp
        · rw [if_neg hkl]
          apply hdead k hklen
          intro hkL
          apply hknot
          simp only [List.mem_append, List.mem_cons] at hkL ⊢
          tauto
    · rw [applyMerge_prev s b hl hr]
      rw [if_neg]
      · exact hprev0
      · intro hcond
        have := hfix 0 hcond
        omega
    · have hq0 : ∀ c ∈ rest, Qok (spmApplyMerge s b) c := fun c hc =>
        qok_apply hqb (hqok c (hrestq c hc)) hn1 hn2
      have hPcomp : (nthSym (spmApplyMerge s b) b.left).prev =
          (nthSym s b.left).prev := by
        rw [applyMerge_prev s b hl hr]
        rw [if_neg]
        intro hcond
        have := hfix b.left hcond
        omega
      have hNcomp : (nthSym (spmApplyMerge s b) b.left).next =
          (nthSym s b.right).next := by
        rw [applyMerge_next s b hl hr, if_pos rfl]
      have hq1 : ∀ c ∈ try_add_bigram_spm v text (spmApplyMerge s b) rest
          (nthSym (spmApplyMerge s b) b.left).prev (b.left : Int),
          Qok (spmApplyMerge s b) c := by
        apply qok_tryAdd hq0
        intro hp0 hdummy hpl hbll
        rw [hPcomp] at hp0 hpl ⊢
        rcases List.eq_nil_or_concat A with hA | ⟨A0, a, hA⟩
        · subst hA
          simp only [List.nil_append, List.head?_cons, Option.some.injEq] at hheadL
          rw [hheadL] at hp0
          rw [hprev0] at hp0
          exact absurd hp0 (by omega)
        · subst hA
          have hcov2 : Cover us s 0 (A0 ++ a :: (b.left :: b.right :: M')) := by
            have hcc := hcov
            rwa [List.concat_eq_append, List.append_assoc, List.singleton_append] at hcc
          obtain ⟨t2, ht2, hcovA⟩ := cover_decomp_node A0 hcov2
          obtain ⟨c3, hc3a, hc3b, hc3c, hc3d, hcases3⟩ := cover_node_inv hcovA
          rcases hcases3 with ⟨hMnil3, hx1, hx2⟩ |
            ⟨j3, M3, hMeq3, hnj3, haj3, hprevj3, hcovt3⟩
          · exact absurd hMnil3 (by simp)
          · have hj3 : j3 = b.left := by
              rw [List.cons.injEq] at hMeq3
              exact hMeq3.1.symm
            subst hj3
            rw [hprevj3]
            refine ⟨by omega, ?_⟩
            show (nthSym (spmApplyMerge s b) a).next = ((b.left : Nat) : Int)
            rw [applyMerge_next s b hl hr]
            rw [if_neg (by omega)]
            exact hnj3
      apply qok_tryAdd hq1
      intro hbl0 hN0 hbll hNl
      constructor
      · rw [hNcomp] at hN0 ⊢
        rcases hcases2 with ⟨hm2, hnm1, hm3⟩ | ⟨j2, M2, hM2, hnj2, hrj2, hp2, hc2⟩
        · rw [hnm1] at hN0
          exact absurd hN0 (by omega)
        · rw [hnj2]
          omega
      · rfl
  · simp only [Option.some.injEq, Prod.mk.injEq] at hstep
    obtain ⟨hs1, hs2⟩ := hstep
    subst hs1
    subst hs2
    exact ⟨⟨L, hcov, hheadL, hdead⟩, hprev0, fun c hc => hqok c (hrestq c hc)⟩

theorem spmMergeLoop_inv {v : SanaVocab} {text : Str} {us : List Str} :
    ∀ (fuel : Nat) {s : List SpmSymbol} {q : List SpmBigram}, SpmInv us s q →
    ∃ q', SpmInv us (spmMergeLoop v text fuel s q) q' := by
  intro fuel
  induction fuel with
  | zero =>
    intro s q h
    exact ⟨q, h⟩
  | succ fuel ih =>
    intro s q h
    have hE : spmMergeLoop v text (fuel + 1) s q =
        match spmStep v text s q with
        | none => s
        | some (s2, q2) => spmMergeLoop v text fuel s2 q2 := rfl
    rcases hstep : spmStep v text s q with _ | ⟨s2, q2⟩
    · rw [hE, hstep]
      exact ⟨q, h⟩
    · rw [hE, hstep]
      exact ih (spmStep_inv h hstep)

/-! ### The initial state of the merge loop -/

theorem offU_add_segU (us : List Str) (t c : Nat) :
    offU us (t + c) = offU us t + (segU us t c).length := by
  unfold offU segU
  rw [List.take_add, List.flatten_append, List.length_append]

theorem offU_total (us : List Str) : offU us us.length = us.flatten.length := by
  unfold offU
  rw [List.take_length]

theorem segU_one_eq (us : List Str) {t : Nat} (u : Str) (rest : List Str)
    (hrest : us.drop t = u :: rest) : segU us t 1 = u := by
  unfold segU
  rw [hrest]
  simp

theorem utf8_at_offU (us : List Str) (hus : GoodUnits us) (t : Nat) (ht : t < us.length) :
    utf8_len_char (us.flatten.drop (offU us t)) = (segU us t 1).length := by
  have hne : us.drop t ≠ [] := by
    simp only [ne_eq, List.drop_eq_nil_iff]
    omega
  obtain ⟨u, rest, hrest⟩ := List.exists_cons_of_ne_nil hne
  rw [flatten_drop_offU, hrest, List.flatten_cons]
  have hu : u ∈ us := by
    apply List.mem_of_mem_drop (l := us) (n := t)
    rw [hrest]
    simp
  rw [utf8_goodUnit u rest.flatten (hus u hu)]
  rw [segU_one_eq us u rest hrest]

/-- The symbol list produced by the segmentation loop for units
`[t, t + m)`, with running symbol index `idx`. -/
def segList (us : List Str) : Nat → Nat → Nat → List SpmSymbol
  | 0, _, _ => []
  | m + 1, t, idx =>
    ⟨(idx : Int) - 1, -1, offU us t, (segU us t 1).length⟩ :: segList us m (t + 1) (idx + 1)

theorem segList_length (us : List Str) : ∀ (m t idx : Nat),
    (segList us m t idx).length = m := by
  intro m
  induction m with
  | zero => intro t idx; rfl
  | succ m ih =>
    intro t idx
    show (⟨(idx : Int) - 1, -1, offU us t, (segU us t 1).length⟩ ::
      segList us m (t + 1) (idx + 1)).length = m + 1
    rw [List.length_cons, ih]

theorem segList_nth (us : List Str) : ∀ (m t idx k : Nat), k < m →
    nthSym (segList us m t idx) k =
      ⟨(idx : Int) + (k : Int) - 1, -1, offU us (t + k), (segU us (t + k) 1).length⟩ := by
  intro m
  induction m with
  | zero => intro t idx k hk; omega
  | succ m ih =>
    intro t idx k hk
    cases k with
    | zero =>
      show nthSym (⟨(idx : Int) - 1, -1, offU us t, (segU us t 1).length⟩ ::
        segList us m (t + 1) (idx + 1)) 0 = _
      rw [nthSym_cons_zero]
      simp
    | succ k =>
      show nthSym (⟨(idx : Int) - 1, -1, offU us t, (segU us t 1).length⟩ ::
        segList us m (t + 1) (idx + 1)) (k + 1) = _
      rw [nthSym_cons_succ]
      rw [ih (t + 1) (idx + 1) k (by omega)]
      simp only [SpmSymbol.mk.injEq]
      refine ⟨by push_cast; ring, trivial, ?_, ?_⟩
      · rw [show t + 1 + k = t + (k + 1) from by omega]
      · rw [show t + 1 + k = t + (k + 1) from by omega]

theorem segAux_step (text : Str) (fuel offs idx : Nat) :
    spmSegmentAux (fuel + 1) text offs idx =
      if offs < text.length then
        if utf8_len_char (text.drop offs) = 0 then spmSegmentAux fuel text (offs + 1) idx
        else ⟨(idx : Int) - 1, -1, offs, utf8_len_char (text.drop offs)⟩ ::
          spmSegmentAux fuel text (offs + utf8_len_char (text.drop offs)) (idx + 1)
      else [] := rfl

theorem segAux_eq (us : List Str) (hus : GoodUnits us) :
    ∀ (m t idx fuel : Nat), t + m = us.length →
    us.flatten.length - offU us t ≤ fuel →
    spmSegmentAux fuel us.flatten (offU us t) idx = segList us m t idx := by
  intro m
  induction m with
  | zero =>
    intro t idx fuel hm hfuel
    have ht : t = us.length := by omega
    subst ht
    cases fuel with
    | zero => rfl
    | succ fuel =>
      rw [segAux_step, offU_total, if_neg (by omega)]
      rfl
  | succ m ih =>
    intro t idx fuel hm hfuel
    have ht : t < us.length := by omega
    have hadd := offU_add_segU us t 1
    have hpos := segU_pos us hus t 1 ht le_rfl
    have htot : offU us (t + 1) ≤ us.flatten.length := by
      have h3 := offU_add_segU us (t + 1) (us.length - (t + 1))
      rw [show t + 1 + (us.length - (t + 1)) = us.length from by omega, offU_total] at h3
      omega
    have hlt : offU us t < us.flatten.length := by omega
    have hlen := utf8_at_offU us hus t ht
    cases fuel with
    | zero =>
      exfalso
      omega
    | succ fuel =>
      rw [segAux_step, if_pos hlt, hlen, if_neg (by omega)]
      rw [show offU us t + (segU us t 1).length = offU us (t + 1) from hadd.symm]
      rw [ih (t + 1) (idx + 1) fuel (by omega) (by omega)]
      rfl

theorem setNextChain_length : ∀ (l : List SpmSymbol) (i0 : Nat),
    (setNextChain i0 l).length = l.length := by
  intro l
  induction l with
  | nil => intro i0; rfl
  | cons s l ih =>
    intro i0
    cases l with
    | nil => rfl
    | cons s2 rest =>
      show ({ s with next := ((i0 + 1 : Nat) : Int) } ::
        setNextChain (i0 + 1) (s2 :: rest)).length = _
      rw [List.length_cons, ih (i0 + 1), List.length_cons]
      rfl

theorem setNextChain_nth : ∀ (l : List SpmSymbol) (i0 k : Nat), k < l.length →
    nthSym (setNextChain i0 l) k =
      { nthSym l k with
        next := if k + 1 < l.length then ((i0 + k + 1 : Nat) : Int) else -1 } := by
  intro l
  induction l with
  | nil =>
    intro i0 k hk
    simp at hk
  | cons s l ih =>
    intro i0 k hk
    cases l with
    | nil =>
      cases k with
      | zero =>
        have h1 : ([s] : List SpmSymbol).length = 1 := rfl
        rw [h1, if_neg (by omega)]
        rfl
      | succ k => exact absurd hk (by simp)
    | cons s2 rest =>
      cases k with
      | zero =>
        have h1 : (s :: s2 :: rest).length = rest.length + 2 := rfl
        rw [h1, if_pos (by omega)]
        rfl
      | succ k =>
        have hk' : k < (s2 :: rest).length := by
          simp only [List.length_cons] at hk ⊢
          omega
        rw [show nthSym (setNextChain i0 (s :: s2 :: rest)) (k + 1) =
          nthSym (setNextChain (i0 + 1) (s2 :: rest)) k from rfl]
        rw [ih (i0 + 1) k hk']
        rw [show nthSym (s :: s2 :: rest) (k + 1) = nthSym (s2 :: rest) k from rfl]
        by_cases hc : k + 1 < (s2 :: rest).length
        · rw [if_pos hc, if_pos (by simp only [List.length_cons] at hc ⊢; omega)]
          rw [show i0 + 1 + k + 1 = i0 + (k + 1) + 1 from by omega]
        · rw [if_neg hc, if_neg (by simp only [List.length_cons] at hc ⊢; omega)]

theorem spmSegment_length (us : List Str) (hus : GoodUnits us) :
    (spmSegment us.flatten).length = us.length := by
  unfold spmSegment
  rw [setNextChain_length]
  have hseg : spmSegmentAux us.flatten.length us.flatten 0 0 =
      segList us us.length 0 0 :=
    segAux_eq us hus us.length 0 0 us.flatten.length (by omega) (by omega)
  rw [hseg, segList_length]

theorem spmSegment_nth (us : List Str) (hus : GoodUnits us) (k : Nat)
    (hk : k < us.length) :
    nthSym (spmSegment us.flatten) k =
      ⟨(k : Int) - 1,
       if k + 1 < us.length then ((k + 1 : Nat) : Int) else -1,
       offU us k, (segU us k 1).length⟩ := by
  unfold spmSegment
  have hseg : spmSegmentAux us.flatten.length us.flatten 0 0 =
      segList us us.length 0 0 :=
    segAux_eq us hus us.length 0 0 us.flatten.length (by omega) (by omega)
  rw [hseg]
  rw [setNextChain_nth (segList us us.length 0 0) 0 k (by rw [segList_length]; exact hk)]
  rw [segList_nth us us.length 0 0 k hk]
  rw [segList_length]
  rw [show (0 : Nat) + k = k from by omega]
  simp

theorem cover_init (us : List Str) (hus : GoodUnits us) :
    ∀ (d t : Nat), 1 ≤ d → t + d = us.length →
    Cover us (spmSegment us.flatten) t (List.range' t d) := by
  intro d
  induction d with
  | zero =>
    intro t h1 h2
    omega
  | succ d ih =>
    intro t h1 h2
    have ht : t < us.length := by omega
    have hnth := spmSegment_nth us hus t ht
    have hlen := spmSegment_length us hus
    cases d with
    | zero =>
      rw [show List.range' t 1 = [t] from rfl]
      refine Cover.last t t 1 (by omega) le_rfl (by omega) ?_ ?_ ?_
      · rw [hnth]
      · rw [hnth]
      · rw [hnth]
        show (if t + 1 < us.length then ((t + 1 : Nat) : Int) else -1) = -1
        rw [if_neg (by omega)]
    | succ d =>
      rw [List.range'_succ]
      refine Cover.cons t t 1 (t + 1) (List.range' (t + 1) (d + 1)) (by omega) le_rfl
        ?_ ?_ ?_ (by omega) ?_ ?_ ?_
      · rw [hnth]
      · rw [hnth]
      · rw [hnth]
        show (if t + 1 < us.length then ((t + 1 : Nat) : Int) else -1) = ((t + 1 : Nat) : Int)
        rw [if_pos (by omega)]
      · rw [spmSegment_nth us hus (t + 1) (by omega)]
        show ((t + 1 : Nat) : Int) - 1 = ((t : Nat) : Int)
        omega
      · rw [List.range'_succ]
        rfl
      · exact ih (t + 1) (by omega) (by omega)

theorem spmInitQueueAux_qok (v : SanaVocab) (text : Str) (us : List Str)
    (hus : GoodUnits us) :
    ∀ (fuel i : Nat) (q : List SpmBigram),
    (∀ b ∈ q, Qok (spmSegment us.flatten) b) →
    ∀ b ∈ spmInitQueueAux v text (spmSegment us.flatten) fuel i q,
      Qok (spmSegment us.flatten) b := by
  intro fuel
  induction fuel with
  | zero =>
    intro i q hq
    exact hq
  | succ fuel ih =>
    intro i q hq
    have hstep : spmInitQueueAux v text (spmSegment us.flatten) (fuel + 1) i q =
        if i + 1 < (spmSegment us.flatten).length then
          spmInitQueueAux v text (spmSegment us.flatten) fuel (i + 1)
            (try_add_bigram_spm v text (spmSegment us.flatten) q (i : Int)
              ((i + 1 : Nat) : Int))
        else q := rfl
    rw [hstep]
    by_cases hcond : i + 1 < (spmSegment us.flatten).length
    · rw [if_pos hcond]
      apply ih (i + 1)
      apply qok_tryAdd hq
      intro h0 h1 h2 h3
      have hiu : i + 1 < us.length := by
        rw [spmSegment_length us hus] at hcond
        exact hcond
      refine ⟨by omega, ?_⟩
      show (nthSym (spmSegment us.flatten) i).next = ((i + 1 : Nat) : Int)
      rw [spmSegment_nth us hus i (by omega)]
      show (if i + 1 < us.length then ((i + 1 : Nat) : Int) else -1) = ((i + 1 : Nat) : Int)
      rw [if_pos hiu]
    · rw [if_neg hcond]
      exact hq

theorem spmInv_init (v : SanaVocab) (us : List Str) (hus : GoodUnits us)
    (hne : us ≠ []) :
    SpmInv us (spmSegment us.flatten)
      (spmInitQueue v us.flatten (spmSegment us.flatten)) := by
  have hlen := spmSegment_length us hus
  have hpos : 1 ≤ us.length := by
    cases us with
    | nil => simp at hne
    | cons u r => simp
  refine ⟨⟨List.range' 0 us.length,
    cover_init us hus us.length 0 hpos (by omega), ?_, ?_⟩, ?_, ?_⟩
  · rw [show us.length = us.length - 1 + 1 from by omega, List.range'_succ]
    rfl
  · intro k hk hknot
    exfalso
    apply hknot
    rw [List.mem_range'_1]
    rw [hlen] at hk
    omega
  · rw [spmSegment_nth us hus 0 (by omega)]
    show ((0 : Nat) : Int) - 1 = -1
    decide
  · unfold spmInitQueue
    apply spmInitQueueAux_qok v us.flatten us hus
    intro b hb
    simp at hb

/-! ### The output walk under the chain invariant -/

/-- The contribution of one symbol to the output walk. -/
def nodeEmit (v : SanaVocab) (text : Str) (s : List SpmSymbol) (k : Nat) : List Int :=
  if 0 < (nthSym s k).n then
    match assocFind? v.token_to_id ((text.drop (nthSym s k).start).take (nthSym s k).n) with
    | some id => [id]
    | none => charFallback v ((text.drop (nthSym s k).start).take (nthSym s k).n)
  else []

theorem walk_step (v : SanaVocab) (text : Str) (s : List SpmSymbol) (fuel : Nat)
    (i : Int) :
    spmFinalizeWalk v text s (fuel + 1) i =
      if i = -1 then []
      else nodeEmit v text s i.toNat ++ spmFinalizeWalk v text s fuel (nthSym s i.toNat).next := rfl

theorem walk_nil (v : SanaVocab) (text : Str) (s : List SpmSymbol) :
    ∀ fuel : Nat, spmFinalizeWalk v text s fuel (-1) = [] := by
  intro fuel
  cases fuel with
  | zero => rfl
  | succ fuel => rw [walk_step, if_pos rfl]

theorem walk_cover (v : SanaVocab) {us : List Str} {s : List SpmSymbol} {t : Nat}
    {L : List Nat} (hcov : Cover us s t L) : ∀ (fuel i0 : Nat),
    L.head? = some i0 → L.length ≤ fuel →
    spmFinalizeWalk v us.flatten s fuel (i0 : Int) =
      L.flatMap (fun k => nodeEmit v us.flatten s k) := by
  induction hcov with
  | last i t c hi hc hm hst hn hnext =>
    intro fuel i0 hhead hfuel
    have hi0 : i0 = i := by simpa using hhead.symm
    subst hi0
    simp only [List.length_singleton] at hfuel
    obtain ⟨f, hf⟩ : ∃ f, fuel = f + 1 := ⟨fuel - 1, by omega⟩
    subst hf
    rw [walk_step, if_neg (by omega)]
    rw [show ((i0 : Nat) : Int).toNat = i0 from rfl]
    rw [hnext, walk_nil]
    simp [List.flatMap_cons]
  | cons i t c j L hi hc hst hn hnext hij hprev hheadL hsub ih =>
    intro fuel i0 hhead hfuel
    have hi0 : i0 = i := by simpa using hhead.symm
    subst hi0
    simp only [List.length_cons] at hfuel
    obtain ⟨f, hf⟩ : ∃ f, fuel = f + 1 := ⟨fuel - 1, by omega⟩
    subst hf
    rw [walk_step, if_neg (by omega)]
    rw [show ((i0 : Nat) : Int).toNat = i0 from rfl]
    rw [hnext, ih f j hheadL (by omega)]
    rw [List.flatMap_cons]

theorem flatMap_ne_nil {α β : Type} (f : α → List β) :
    ∀ (l : List α) (x : α), x ∈ l → f x ≠ [] → l.flatMap f ≠ [] := by
  intro l
  induction l with
  | nil =>
    intro x hx
    simp at hx
  | cons a r ih =>
    intro x hx hfx
    rw [List.flatMap_cons]
    intro hcontra
    rw [List.append_eq_nil] at hcontra
    rcases List.mem_cons.mp hx with hx | hx
    · subst hx
      exact hfx hcontra.1
    · exact ih x hx hfx hcontra.2

theorem mem_take_of_drop_cons : ∀ (p c : Nat) (l : List Str) (u : Str) (S : List Str),
    l.drop p = u :: S → p < c → u ∈ l.take c := by
  intro p
  induction p with
  | zero =>
    intro c l u S hdrop hc
    rw [List.drop_zero] at hdrop
    subst hdrop
    cases c with
    | zero => omega
    | succ c => simp [List.take_succ_cons]
  | succ p ih =>
    intro c l u S hdrop hc
    cases l with
    | nil => simp at hdrop
    | cons x xs =>
      rw [List.drop_succ_cons] at hdrop
      cases c with
      | zero => omega
      | succ c =>
        rw [List.take_succ_cons]
        exact List.mem_cons_of_mem x (ih c xs u S hdrop (by omega))

theorem cover_locate {us : List Str} {s : List SpmSymbol} {t : Nat} {L : List Nat}
    (h : Cover us s t L) : ∀ (p : Nat), t ≤ p → p < us.length →
    ∃ k ∈ L, ∃ tk ck, tk ≤ p ∧ p < tk + ck ∧ 1 ≤ ck ∧
      (nthSym s k).start = offU us tk ∧ (nthSym s k).n = (segU us tk ck).length := by
  induction h with
  | last i t c hi hc hm hst hn hnext =>
    intro p hp1 hp2
    exact ⟨i, by simp, t, c, hp1, by omega, hc, hst, hn⟩
  | cons i t c j L hi hc hst hn hnext hij hprev hheadL hsub ih =>
    intro p hp1 hp2
    by_cases hpc : p < t + c
    · exact ⟨i, by simp, t, c, hp1, hpc, hc, hst, hn⟩
    · obtain ⟨k, hkL, tk, ck, h1, h2, h3, h4, h5⟩ := ih p (by omega) hp2
      exact ⟨k, List.mem_cons_of_mem i hkL, tk, ck, h1, h2, h3, h4, h5⟩

/-! ### SPM nonemptiness -/

theorem flatten_ne_nil_of_goodUnits {us : List Str} (hus : GoodUnits us)
    (hne : us ≠ []) : us.flatten ≠ [] := by
  obtain ⟨u, rest, hrest⟩ := List.exists_cons_of_ne_nil hne
  subst hrest
  rw [List.flatten_cons]
  have := goodUnit_length_pos (hus u (by simp))
  intro hc
  rw [← List.length_eq_zero] at hc
  simp only [List.length_append] at hc
  omega

theorem tokenize_spm_nonempty (v : SanaVocab) (us : List Str) (hus : GoodUnits us)
    (hne : us ≠ []) (hscore : v.id_to_score ≠ [])
    (hok : v.unk_token_id ≠ -1 ∨ ∃ u ∈ us, assocFind? v.token_to_id u ≠ none) :
    v.tokenize_spm us.flatten ≠ [] := by
  have htext_ne : us.flatten ≠ [] := flatten_ne_nil_of_goodUnits hus hne
  have hpos : 1 ≤ us.length := by
    cases us with
    | nil => simp at hne
    | cons u r => simp
  have hsymlen := spmSegment_length us hus
  have hsymne : spmSegment us.flatten ≠ [] := by
    intro hc
    rw [← List.length_eq_zero] at hc
    omega
  have heq : v.tokenize_spm us.flatten =
      spmFinalizeWalk v us.flatten
        (spmMergeLoop v us.flatten (4 * (spmSegment us.flatten).length + 1)
          (spmSegment us.flatten) (spmInitQueue v us.flatten (spmSegment us.flatten)))
        ((spmMergeLoop v us.flatten (4 * (spmSegment us.flatten).length + 1)
          (spmSegment us.flatten) (spmInitQueue v us.flatten (spmSegment us.flatten))).length
          + 1)
        ((0 : Nat) : Int) := by
    unfold SanaVocab.tokenize_spm
    rw [if_neg (by push_neg; exact ⟨htext_ne, hscore⟩)]
    simp only []
    rw [if_neg hsymne]
    rfl
  rw [heq]
  obtain ⟨q', hinv'⟩ : ∃ q2,
      SpmInv us (spmMergeLoop v us.flatten (4 * (spmSegment us.flatten).length + 1)
        (spmSegment us.flatten) (spmInitQueue v us.flatten (spmSegment us.flatten))) q2 :=
    spmMergeLoop_inv (4 * (spmSegment us.flatten).length + 1) (spmInv_init v us hus hne)
  obtain ⟨⟨L, hcov, hheadL, hdead⟩, hprev0', hqok'⟩ := hinv'
  have hLlen : L.length ≤
      (spmMergeLoop v us.flatten (4 * (spmSegment us.flatten).length + 1)
        (spmSegment us.flatten) (spmInitQueue v us.flatten (spmSegment us.flatten))).length
        + 1 := by
    have := cover_length_le hcov 0 hheadL
    omega
  rw [walk_cover v hcov _ 0 hheadL hLlen]
  rcases hok with hunk | ⟨u, huus, hufind⟩
  · -- the head node emits: its fallback ends in the unknown id if nothing resolves
    cases L with
    | nil => simp at hheadL
    | cons l0 M =>
      have hl0 : l0 = 0 := by simpa using hheadL
      subst hl0
      obtain ⟨c, hc1, h0len, hst, hn, hcases⟩ := cover_node_inv hcov
      apply flatMap_ne_nil _ _ 0 (by simp)
      unfold nodeEmit
      rw [hst, hn]
      rw [if_pos (by have := segU_pos us hus 0 c (by omega) hc1; omega)]
      rw [piece_at us 0 c]
      have hsub : GoodUnits ((us.drop 0).take c) :=
        fun x hx => hus x (mem_segU_units us 0 c x hx)
      rcases hfind : assocFind? v.token_to_id (segU us 0 c) with _ | id
      · simp only []
        rw [show segU us 0 c = ((us.drop 0).take c).flatten from rfl]
        rw [charFallback_flatten v ((us.drop 0).take c) hsub]
        obtain ⟨u0, r0, hr0⟩ := List.exists_cons_of_ne_nil hne
        have hu0mem : u0 ∈ (us.drop 0).take c := by
          apply mem_take_of_drop_cons 0 c us u0 r0
          · rw [List.drop_zero]
            exact hr0
          · omega
        unfold unitIds
        apply flatMap_ne_nil _ _ u0 hu0mem
        rcases hfind2 : assocFind? v.token_to_id u0 with _ | id2
        · simp only []
          unfold unkPiece
          rw [if_pos hunk]
          simp
        · simp
      · simp
  · obtain ⟨P, S, hPS⟩ := List.append_of_mem huus
    have hdropt : us.drop P.length = u :: S := by
      rw [hPS, List.drop_left]
    have htlt : P.length < us.length := by
      rw [hPS]
      simp only [List.length_append, List.length_cons]
      omega
    obtain ⟨k, hkL, tk, ck, htk1, htk2, hck, hstk, hnk⟩ :=
      cover_locate hcov P.length (by omega) htlt
    apply flatMap_ne_nil _ _ k hkL
    unfold nodeEmit
    rw [hstk, hnk]
    rw [if_pos (by have := segU_pos us hus tk ck (by omega) hck; omega)]
    rw [piece_at us tk ck]
    have hsub : GoodUnits ((us.drop tk).take ck) :=
      fun x hx => hus x (mem_segU_units us tk ck x hx)
    rcases hfind : assocFind? v.token_to_id (segU us tk ck) with _ | id
    · simp only []
      rw [show segU us tk ck = ((us.drop tk).take ck).flatten from rfl]
      rw [charFallback_flatten v ((us.drop tk).take ck) hsub]
      have humem : u ∈ (us.drop tk).take ck := by
        apply mem_take_of_drop_cons (P.length - tk) ck (us.drop tk) u S
        · have hdd : (us.drop tk).drop (P.length - tk) = us.drop P.length := by
            rw [List.drop_drop]
            congr 1
            omega
          rw [hdd]
          exact hdropt
        · omega
      unfold unitIds
      apply flatMap_ne_nil _ _ u humem
      rcases hfind2 : assocFind? v.token_to_id u with _ | id2
      · exact absurd hfind2 hufind
      · simp
    · simp

/-! ### Pre-tokenization at unit granularity -/

theorem isSpaceB_high (b : Nat) (hb : 128 ≤ b) : isSpaceB b = false := by
  simp only [isSpaceB, Bool.or_eq_false_iff, decide_eq_false_iff_not]
  omega

theorem isAlphaB_high (b : Nat) (hb : 128 ≤ b) : isAlphaB b = false := by
  simp only [isAlphaB, Bool.or_eq_false_iff, Bool.and_eq_false_iff,
    decide_eq_false_iff_not]
  omega

theorem isDigitB_high (b : Nat) (hb : 128 ≤ b) : isDigitB b = false := by
  simp only [isDigitB, Bool.and_eq_false_iff, decide_eq_false_iff_not]
  omega

theorem isOtherB_high (b : Nat) (hb : 128 ≤ b) : isOtherB b = true := by
  simp [isOtherB, isSpaceB_high b hb, isAlphaB_high b hb, isDigitB_high b hb]

/-- Every well-formed codepoint unit is homogeneous for any byte class that
is constant on `[128, 256)`: a multi-byte unit consists entirely of bytes
`≥ 128`, a single-byte unit trivially. -/
theorem goodUnit_homog (u : Str) (hu : GoodUnit u = true) (p : Nat → Bool)
    (hconst : ∀ b, 128 ≤ b → p b = p 128) :
    u.all p = true ∨ u.all (fun b => !(p b)) = true := by
  cases u with
  | nil => simp [GoodUnit] at hu
  | cons c rest =>
    simp only [GoodUnit, Bool.and_eq_true, decide_eq_true_eq] at hu
    obtain ⟨⟨hc256, hlen⟩, hcont⟩ := hu
    by_cases hc : c < 128
    · have hll : leadLen c = 1 := by
        unfold leadLen
        rw [if_pos (by omega)]
      rw [hll] at hlen
      have hrest : rest = [] := by
        cases rest with
        | nil => rfl
        | cons x xs => simp at hlen
      subst hrest
      cases hpc : p c with
      | true =>
        left
        simp [hpc]
      | false =>
        right
        simp [hpc]
    · have hallhigh : ∀ b ∈ c :: rest, 128 ≤ b := by
        intro b hb
        rcases List.mem_cons.mp hb with hb | hb
        · subst hb
          omega
        · have := List.all_eq_true.mp hcont b hb
          simp only [isContB, Bool.and_eq_true, decide_eq_true_eq] at this
          omega
      cases hp128 : p 128 with
      | true =>
        left
        rw [List.all_eq_true]
        intro b hb
        rw [hconst b (hallhigh b hb), hp128]
      | false =>
        right
        rw [List.all_eq_true]
        intro b hb
        have h1 : p b = false := by rw [hconst b (hallhigh b hb), hp128]
        simp [h1]

theorem takeWhile_append_all (p : Nat → Bool) : ∀ (u r : Str), u.all p = true →
    (u ++ r).takeWhile p = u ++ r.takeWhile p := by
  intro u
  induction u with
  | nil =>
    intro r _
    rfl
  | cons b u2 ih =>
    intro r hall
    simp only [List.all_cons, Bool.and_eq_true] at hall
    rw [List.cons_append, List.takeWhile_cons, if_pos hall.1, ih r hall.2,
      List.cons_append]

theorem dropWhile_append_all (p : Nat → Bool) : ∀ (u r : Str), u.all p = true →
    (u ++ r).dropWhile p = r.dropWhile p := by
  intro u
  induction u with
  | nil =>
    intro r _
    rfl
  | cons b u2 ih =>
    intro r hall
    simp only [List.all_cons, Bool.and_eq_true] at hall
    rw [List.cons_append, List.dropWhile_cons, if_pos hall.1, ih r hall.2]

/-- `takeWhile`/`dropWhile` over a concatenation of class-homogeneous units
operate at unit granularity. -/
theorem span_units_tw (p : Nat → Bool) : ∀ (us : List Str),
    (∀ u ∈ us, u.all p = true ∨ u.all (fun b => !(p b)) = true) →
    (us.flatten).takeWhile p = (us.takeWhile (fun u => u.all p)).flatten ∧
    (us.flatten).dropWhile p = (us.dropWhile (fun u => u.all p)).flatten := by
  intro us
  induction us with
  | nil =>
    intro _
    exact ⟨rfl, rfl⟩
  | cons u us ih =>
    intro hh
    obtain ⟨ih1, ih2⟩ := ih (fun x hx => hh x (by simp [hx]))
    by_cases hall : u.all p = true
    · constructor
      · rw [List.flatten_cons, takeWhile_append_all p u _ hall,
          List.takeWhile_cons, if_pos hall, List.flatten_cons, ih1]
      · rw [List.flatten_cons, dropWhile_append_all p u _ hall,
          List.dropWhile_cons, if_pos hall, ih2]
    · have hnp : u.all (fun b => !(p b)) = true := by
        rcases hh u (by simp) with h | h
        · exact absurd h hall
        · exact h
      have hune : u ≠ [] := by
        intro hc
        subst hc
        simp at hall
      obtain ⟨b, u2, hbu⟩ := List.exists_cons_of_ne_nil hune
      subst hbu
      have hpb : p b = false := by
        have := List.all_eq_true.mp hnp b (by simp)
        simpa using this
      constructor
      · rw [List.flatten_cons, List.cons_append,
          List.takeWhile_cons, if_neg (by simp [hpb]),
          List.takeWhile_cons, if_neg hall]
        rfl
      · rw [List.flatten_cons, List.cons_append,
          List.dropWhile_cons, if_neg (by simp [hpb]),
          List.dropWhile_cons, if_neg hall,
          List.flatten_cons, List.cons_append]

theorem units_take1 (us : List Str) (hus : GoodUnits us) (b : Nat) (hb : b < 128)
    (h : us.flatten.take 1 = [b]) : ∃ us2, us = [b] :: us2 := by
  cases us with
  | nil => simp at h
  | cons u us2 =>
    have hu := hus u (by simp)
    cases u with
    | nil => simp [GoodUnit] at hu
    | cons c rest =>
      rw [List.flatten_cons, List.cons_append, List.take_succ_cons,
        List.take_zero] at h
      have hcb : c = b := by simpa using h
      subst hcb
      simp only [GoodUnit, Bool.and_eq_true, decide_eq_true_eq] at hu
      obtain ⟨⟨h256, hlen⟩, hcont⟩ := hu
      have hll : leadLen c = 1 := by
        unfold leadLen
        rw [if_pos (by omega)]
      rw [hll] at hlen
      have hrest : rest = [] := by
        cases rest with
        | nil => rfl
        | cons x xs => simp at hlen
      subst hrest
      exact ⟨us2, rfl⟩

theorem units_take2 (us : List Str) (hus : GoodUnits us) (b1 b2 : Nat)
    (hb1 : b1 < 128) (hb2 : b2 < 128) (h : us.flatten.take 2 = [b1, b2]) :
    ∃ us2, us = [b1] :: [b2] :: us2 := by
  obtain ⟨us1, hus1⟩ := units_take1 us hus b1 hb1 (by
    have h1 := congrArg (List.take 1) h
    rw [List.take_take] at h1
    simpa using h1)
  subst hus1
  rw [List.flatten_cons, List.singleton_append, List.take_succ_cons] at h
  have h2 : us1.flatten.take 1 = [b2] := by simpa using h
  obtain ⟨us2, hus2⟩ := units_take1 us1 (fun x hx => hus x (by simp [hx])) b2 hb2 h2
  subst hus2
  exact ⟨us2, rfl⟩

theorem goodUnit_ascii_tail {c : Nat} {u2 : Str} (hu : GoodUnit (c :: u2) = true)
    (hc : c < 128) : u2 = [] := by
  simp only [GoodUnit, Bool.and_eq_true, decide_eq_true_eq] at hu
  obtain ⟨⟨h256, hlen⟩, hcont⟩ := hu
  have hll : leadLen c = 1 := by
    unfold leadLen
    rw [if_pos (by omega)]
  rw [hll] at hlen
  cases u2 with
  | nil => rfl
  | cons x xs => simp at hlen

theorem preTokF_step (fuel : Nat) (c : Nat) (rest : Str) :
    bpePreTokenizeF (fuel + 1) (c :: rest) =
      if c = 39 then
        if rest.take 1 = [115] then [39, 115] :: bpePreTokenizeF fuel (rest.drop 1)
        else if rest.take 1 = [116] then [39, 116] :: bpePreTokenizeF fuel (rest.drop 1)
        else if rest.take 2 = [114, 101] then [39, 114, 101] :: bpePreTokenizeF fuel (rest.drop 2)
        else if rest.take 2 = [118, 101] then [39, 118, 101] :: bpePreTokenizeF fuel (rest.drop 2)
        else if rest.take 1 = [109] then [39, 109] :: bpePreTokenizeF fuel (rest.drop 1)
        else if rest.take 2 = [108, 108] then [39, 108, 108] :: bpePreTokenizeF fuel (rest.drop 2)
        else if rest.take 1 = [100] then [39, 100] :: bpePreTokenizeF fuel (rest.drop 1)
        else
          (c :: rest).takeWhile isOtherB ::
            bpePreTokenizeF fuel ((c :: rest).dropWhile isOtherB)
      else if isAlphaB c then
        (c :: rest).takeWhile isAlphaB :: bpePreTokenizeF fuel ((c :: rest).dropWhile isAlphaB)
      else if isDigitB c then
        (c :: rest).takeWhile isDigitB :: bpePreTokenizeF fuel ((c :: rest).dropWhile isDigitB)
      else if isSpaceB c then
        (c :: rest).takeWhile isSpaceB :: bpePreTokenizeF fuel ((c :: rest).dropWhile isSpaceB)
      else
        (c :: rest).takeWhile isOtherB ::
          bpePreTokenizeF fuel ((c :: rest).dropWhile isOtherB) := rfl

/-- A greedy class run over homogeneous units consumes a nonempty prefix of
whole units. -/
theorem classRun (p : Nat → Bool) (hconst : ∀ b, 128 ≤ b → p b = p 128)
    (us : List Str) (hus : GoodUnits us)
    (u1 : Str) (us2 : List Str) (hu : us = u1 :: us2)
    (hphead : ∃ b t, u1 = b :: t ∧ p b = true) :
    ∃ A B, us = A ++ B ∧ A ≠ [] ∧
      (us.flatten).takeWhile p = A.flatten ∧
      (us.flatten).dropWhile p = B.flatten := by
  have hhomog : ∀ x ∈ us, x.all p = true ∨ x.all (fun b => !(p b)) = true :=
    fun x hx => goodUnit_homog x (hus x hx) p hconst
  obtain ⟨h1, h2⟩ := span_units_tw p us hhomog
  refine ⟨us.takeWhile (fun x => x.all p), us.dropWhile (fun x => x.all p),
    (List.takeWhile_append_dropWhile (fun x => x.all p) us).symm, ?_, h1, h2⟩
  obtain ⟨b, t, hbt, hpb⟩ := hphead
  have hallu1 : u1.all p = true := by
    rcases hhomog u1 (by rw [hu]; simp) with h | h
    · exact h
    · exfalso
      have h3 := List.all_eq_true.mp h b (by rw [hbt]; simp)
      simp [hpb] at h3
  subst hu
  rw [List.takeWhile_cons, if_pos hallu1]
  simp

theorem classBranch (p : Nat → Bool) (hconst : ∀ b, 128 ≤ b → p b = p 128)
    (fuel : Nat)
    (ih : ∀ us : List Str, GoodUnits us → us.flatten.length ≤ fuel →
      ∃ wss : List (List Str), bpePreTokenizeF fuel us.flatten = wss.map List.flatten ∧
        wss.flatten = us ∧ ∀ ws ∈ wss, ws ≠ [])
    (us : List Str) (hus : GoodUnits us)
    (u1 : Str) (us2 : List Str) (hu : us = u1 :: us2)
    (hlen : us.flatten.length ≤ fuel + 1)
    (hphead : ∃ b t, u1 = b :: t ∧ p b = true) :
    ∃ wss : List (List Str), ((us.flatten).takeWhile p ::
        bpePreTokenizeF fuel ((us.flatten).dropWhile p)) = wss.map List.flatten ∧
      wss.flatten = us ∧ ∀ ws ∈ wss, ws ≠ [] := by
  obtain ⟨A, B, hAB, hAne, h1, h2⟩ := classRun p hconst us hus u1 us2 hu hphead
  have hBgood : GoodUnits B := fun x hx => hus x (by
    rw [hAB]
    exact List.mem_append_right A hx)
  have hflat : us.flatten = A.flatten ++ B.flatten := by
    rw [hAB, List.flatten_append]
  have hApos : 1 ≤ A.flatten.length := by
    obtain ⟨a, A2, hA2⟩ := List.exists_cons_of_ne_nil hAne
    have hamem : a ∈ us := by
      rw [hAB, hA2]
      simp
    have := goodUnit_length_pos (hus a hamem)
    rw [hA2, List.flatten_cons, List.length_append]
    omega
  have hBlen : B.flatten.length ≤ fuel := by
    have hll := congrArg List.length hflat
    rw [List.length_append] at hll
    omega
  obtain ⟨wss2, hw1, hw2, hw3⟩ := ih B hBgood hBlen
  refine ⟨A :: wss2, ?_, ?_, ?_⟩
  · rw [h1, h2, hw1, List.map_cons]
  · rw [List.flatten_cons, hw2, hAB]
  · intro ws hws
    rcases List.mem_cons.mp hws with h | h
    · subst h
      exact hAne
    · exact hw3 ws h

/-- The pre-tokenization of a well-formed byte string splits it into a
concatenation of nonempty words, each a concatenation of whole codepoint
units; no byte is dropped or duplicated. -/
theorem preTok_partition : ∀ (fuel : Nat) (us : List Str), GoodUnits us →
    us.flatten.length ≤ fuel →
    ∃ wss : List (List Str),
      bpePreTokenizeF fuel us.flatten = wss.map List.flatten ∧
      wss.flatten = us ∧ ∀ ws ∈ wss, ws ≠ [] := by
  intro fuel
  induction fuel with
  | zero =>
    intro us hus hlen
    cases us with
    | nil => exact ⟨[], rfl, rfl, by simp⟩
    | cons u us2 =>
      exfalso
      have := goodUnit_length_pos (hus u (by simp))
      simp only [List.flatten_cons, List.length_append] at hlen
      omega
  | succ fuel ih =>
    intro us hus hlen
    cases us with
    | nil => exact ⟨[], rfl, rfl, by simp⟩
    | cons u us2 =>
      have hu := hus u (by simp)
      have hus2 : GoodUnits us2 := fun x hx => hus x (by simp [hx])
      have hune : u ≠ [] := by
        intro hc
        subst hc
        simp [GoodUnit] at hu
      obtain ⟨c, u2, hcu⟩ := List.exists_cons_of_ne_nil hune
      subst hcu
      rw [List.flatten_cons, List.cons_append, preTokF_step]
      by_cases hc39 : c = 39
      · subst hc39
        have hu2 : u2 = [] := goodUnit_ascii_tail hu (by omega)
        subst hu2
        rw [if_pos rfl, List.nil_append]
        by_cases hs1 : us2.flatten.take 1 = [115]
        · rw [if_pos hs1]
          obtain ⟨us3, hus3⟩ := units_take1 us2 hus2 115 (by omega) hs1
          subst hus3
          rw [show (([115] : Str) :: us3).flatten.drop 1 = us3.flatten from by simp]
          obtain ⟨wss2, hw1, hw2, hw3⟩ := ih us3 (fun x hx => hus2 x (by simp [hx])) (by
            simp only [List.flatten_cons, List.length_append, List.length_cons,
              List.length_nil] at hlen
            omega)
          refine ⟨[[39], [115]] :: wss2, ?_, ?_, ?_⟩
          · rw [hw1, List.map_cons]
            rfl
          · rw [List.flatten_cons, hw2]
            rfl
          · intro ws hws
            rcases List.mem_cons.mp hws with h | h
            · subst h
              simp
            · exact hw3 ws h
        · rw [if_neg hs1]
          by_cases hs2 : us2.flatten.take 1 = [116]
          · rw [if_pos hs2]
            obtain ⟨us3, hus3⟩ := units_take1 us2 hus2 116 (by omega) hs2
            subst hus3
            rw [show (([116] : Str) :: us3).flatten.drop 1 = us3.flatten from by simp]
            obtain ⟨wss2, hw1, hw2, hw3⟩ := ih us3 (fun x hx => hus2 x (by simp [hx])) (by
              simp only [List.flatten_cons, List.length_append, List.length_cons,
                List.length_nil] at hlen
              omega)
            refine ⟨[[39], [116]] :: wss2, ?_, ?_, ?_⟩
            · rw [hw1, List.map_cons]
              rfl
            · rw [List.flatten_cons, hw2]
              rfl
            · intro ws hws
              rcases List.mem_cons.mp hws with h | h
              · subst h
                simp
              · exact hw3 ws h
          · rw [if_neg hs2]
            by_cases hs3 : us2.flatten.take 2 = [114, 101]
            · rw [if_pos hs3]
              obtain ⟨us3, hus3⟩ := units_take2 us2 hus2 114 101 (by omega) (by omega) hs3
              subst hus3
              rw [show (([114] : Str) :: ([101] : Str) :: us3).flatten.drop 2 =
                us3.flatten from by simp]
              obtain ⟨wss2, hw1, hw2, hw3⟩ := ih us3 (fun x hx => hus2 x (by simp [hx])) (by
                simp only [List.flatten_cons, List.length_append, List.length_cons,
                  List.length_nil] at hlen
                omega)
              refine ⟨[[39], [114], [101]] :: wss2, ?_, ?_, ?_⟩
              · rw [hw1, List.map_cons]
                rfl
              · rw [List.flatten_cons, hw2]
                rfl
              · intro ws hws
                rcases List.mem_cons.mp hws with h | h
                · subst h
                  simp
                · exact hw3 ws h
            · rw [if_neg hs3]
              by_cases hs4 : us2.flatten.take 2 = [118, 101]
              · rw [if_pos hs4]
                obtain ⟨us3, hus3⟩ := units_take2 us2 hus2 118 101 (by omega) (by omega) hs4
                subst hus3
                rw [show (([118] : Str) :: ([101] : Str) :: us3).flatten.drop 2 =
                  us3.flatten from by simp]
                obtain ⟨wss2, hw1, hw2, hw3⟩ := ih us3 (fun x hx => hus2 x (by simp [hx])) (by
                  simp only [List.flatten_cons, List.length_append, List.length_cons,
                    List.length_nil] at hlen
                  omega)
                refine ⟨[[39], [118], [101]] :: wss2, ?_, ?_, ?_⟩
                · rw [hw1, List.map_cons]
                  rfl
                · rw [List.flatten_cons, hw2]
                  rfl
                · intro ws hws
                  rcases List.mem_cons.mp hws with h | h
                  · subst h
                    simp
                  · exact hw3 ws h
              · rw [if_neg hs4]
                by_cases hs5 : us2.flatten.take 1 = [109]
                · rw [if_pos hs5]
                  obtain ⟨us3, hus3⟩ := units_take1 us2 hus2 109 (by omega) hs5
                  subst hus3
                  rw [show (([109] : Str) :: us3).flatten.drop 1 = us3.flatten from by simp]
                  obtain ⟨wss2, hw1, hw2, hw3⟩ := ih us3 (fun x hx => hus2 x (by simp [hx])) (by
                    simp only [List.flatten_cons, List.length_append, List.length_cons,
                      List.length_nil] at hlen
                    omega)
                  refine ⟨[[39], [109]] :: wss2, ?_, ?_, ?_⟩
                  · rw [hw1, List.map_cons]
                    rfl
                  · rw [List.flatten_cons, hw2]
                    rfl
                  · intro ws hws
                    rcases List.mem_cons.mp hws with h | h
                    · subst h
                      simp
                    · exact hw3 ws h
                · rw [if_neg hs5]
                  by_cases hs6 : us2.flatten.take 2 = [108, 108]
                  · rw [if_pos hs6]
                    obtain ⟨us3, hus3⟩ := units_take2 us2 hus2 108 108 (by omega) (by omega) hs6
                    subst hus3
                    rw [show (([108] : Str) :: ([108] : Str) :: us3).flatten.drop 2 =
                      us3.flatten from by simp]
                    obtain ⟨wss2, hw1, hw2, hw3⟩ := ih us3 (fun x hx => hus2 x (by simp [hx])) (by
                      simp only [List.flatten_cons, List.length_append, List.length_cons,
                        List.length_nil] at hlen
                      omega)
                    refine ⟨[[39], [108], [108]] :: wss2, ?_, ?_, ?_⟩
                    · rw [hw1, List.map_cons]
                      rfl
                    · rw [List.flatten_cons, hw2]
                      rfl
                    · intro ws hws
                      rcases List.mem_cons.mp hws with h | h
                      · subst h
                        simp
                      · exact hw3 ws h
                  · rw [if_neg hs6]
                    by_cases hs7 : us2.flatten.take 1 = [100]
                    · rw [if_pos hs7]
                      obtain ⟨us3, hus3⟩ := units_take1 us2 hus2 100 (by omega) hs7
                      subst hus3
                      rw [show (([100] : Str) :: us3).flatten.drop 1 = us3.flatten from by simp]
                      obtain ⟨wss2, hw1, hw2, hw3⟩ := ih us3 (fun x hx => hus2 x (by simp [hx])) (by
                        simp only [List.flatten_cons, List.length_append, List.length_cons,
                          List.length_nil] at hlen
                        omega)
                      refine ⟨[[39], [100]] :: wss2, ?_, ?_, ?_⟩
                      · rw [hw1, List.map_cons]
                        rfl
                      · rw [List.flatten_cons, hw2]
                        rfl
                      · intro ws hws
                        rcases List.mem_cons.mp hws with h | h
                        · subst h
                          simp
                        · exact hw3 ws h
                    · rw [if_neg hs7]
                      rw [show (39 : Nat) :: us2.flatten = (([39] : Str) :: us2).flatten
                        from by rw [List.flatten_cons, List.singleton_append]]
                      exact classBranch isOtherB
                        (fun b hb => by rw [isOtherB_high b hb]; decide) fuel ih
                        (([39] : Str) :: us2) hus [39] us2 rfl hlen ⟨39, [], rfl, by decide⟩
      · rw [if_neg hc39]
        by_cases hal : isAlphaB c = true
        · rw [if_pos hal]
          rw [show c :: (u2 ++ us2.flatten) = ((c :: u2) :: us2).flatten
            from by rw [List.flatten_cons, List.cons_append]]
          exact classBranch isAlphaB (fun b hb => by rw [isAlphaB_high b hb]; decide)
            fuel ih ((c :: u2) :: us2) hus (c :: u2) us2 rfl hlen ⟨c, u2, rfl, hal⟩
        · rw [if_neg hal]
          by_cases hdi : isDigitB c = true
          · rw [if_pos hdi]
            rw [show c :: (u2 ++ us2.flatten) = ((c :: u2) :: us2).flatten
              from by rw [List.flatten_cons, List.cons_append]]
            exact classBranch isDigitB (fun b hb => by rw [isDigitB_high b hb]; decide)
              fuel ih ((c :: u2) :: us2) hus (c :: u2) us2 rfl hlen ⟨c, u2, rfl, hdi⟩
          · rw [if_neg hdi]
            by_cases hsp : isSpaceB c = true
            · rw [if_pos hsp]
              rw [show c :: (u2 ++ us2.flatten) = ((c :: u2) :: us2).flatten
                from by rw [List.flatten_cons, List.cons_append]]
              exact classBranch isSpaceB (fun b hb => by rw [isSpaceB_high b hb]; decide)
                fuel ih ((c :: u2) :: us2) hus (c :: u2) us2 rfl hlen ⟨c, u2, rfl, hsp⟩
            · rw [if_neg hsp]
              have hoth : isOtherB c = true := by
                simp only [Bool.not_eq_true] at hal hdi hsp
                simp [isOtherB, hal, hdi, hsp]
              rw [show c :: (u2 ++ us2.flatten) = ((c :: u2) :: us2).flatten
                from by rw [List.flatten_cons, List.cons_append]]
              exact classBranch isOtherB (fun b hb => by rw [isOtherB_high b hb]; decide)
                fuel ih ((c :: u2) :: us2) hus (c :: u2) us2 rfl hlen ⟨c, u2, rfl, hoth⟩

/-! ### The BPE merge loop at unit granularity -/

/-- `bpeMergeAt` on the unit groups underlying each piece. -/
def psMergeAt : Nat → List (List Str) → List (List Str)
  | 0, a :: b :: rest => (a ++ b) :: rest
  | j + 1, a :: rest => a :: psMergeAt j rest
  | _, l => l

theorem bpeMergeAt_map : ∀ (j : Nat) (pss : List (List Str)),
    bpeMergeAt j (pss.map List.flatten) = (psMergeAt j pss).map List.flatten := by
  intro j
  induction j with
  | zero =>
    intro pss
    cases pss with
    | nil => rfl
    | cons a rest =>
      cases rest with
      | nil => rfl
      | cons b rest2 =>
        show (a.flatten ++ b.flatten) :: rest2.map List.flatten = _
        rw [← List.flatten_append]
        rfl
  | succ j ih =>
    intro pss
    cases pss with
    | nil => rfl
    | cons a rest =>
      show a.flatten :: bpeMergeAt j (rest.map List.flatten) = _
      rw [ih rest]
      rfl

theorem psMergeAt_flatten : ∀ (j : Nat) (pss : List (List Str)),
    (psMergeAt j pss).flatten = pss.flatten := by
  intro j
  induction j with
  | zero =>
    intro pss
    cases pss with
    | nil => rfl
    | cons a rest =>
      cases rest with
      | nil => rfl
      | cons b rest2 =>
        show ((a ++ b) :: rest2).flatten = _
        rw [List.flatten_cons, List.flatten_cons, List.flatten_cons,
          List.append_assoc]
  | succ j ih =>
    intro pss
    cases pss with
    | nil => rfl
    | cons a rest =>
      show (a :: psMergeAt j rest).flatten = _
      rw [List.flatten_cons, ih rest, List.flatten_cons]

theorem psMergeAt_ne : ∀ (j : Nat) (pss : List (List Str)),
    (∀ g ∈ pss, g ≠ []) → ∀ g ∈ psMergeAt j pss, g ≠ [] := by
  intro j
  induction j with
  | zero =>
    intro pss hps g hg
    cases pss with
    | nil => exact hps g hg
    | cons a rest =>
      cases rest with
      | nil => exact hps g hg
      | cons b rest2 =>
        rcases List.mem_cons.mp hg with hg | hg
        · subst hg
          have ha := hps a (by simp)
          intro hc
          rw [List.append_eq_nil] at hc
          exact ha hc.1
        · exact hps g (by simp [hg])
  | succ j ih =>
    intro pss hps g hg
    cases pss with
    | nil => exact hps g hg
    | cons a rest =>
      rcases List.mem_cons.mp hg with hg | hg
      · subst hg
        exact hps g (by simp)
      · exact ih rest (fun x hx => hps x (by simp [hx])) g hg

theorem mergeLoop_partition (ranks : List ((Str × Str) × Nat)) :
    ∀ (fuel : Nat) (pss : List (List Str)), (∀ g ∈ pss, g ≠ []) →
    ∃ pss' : List (List Str),
      bpeMergeLoop ranks fuel (pss.map List.flatten) = pss'.map List.flatten ∧
      pss'.flatten = pss.flatten ∧ ∀ g ∈ pss', g ≠ [] := by
  intro fuel
  induction fuel with
  | zero =>
    intro pss hps
    exact ⟨pss, rfl, rfl, hps⟩
  | succ fuel ih =>
    intro pss hps
    have hstep : bpeMergeLoop ranks (fuel + 1) (pss.map List.flatten) =
        if (pss.map List.flatten).length ≤ 1 then pss.map List.flatten
        else
          match bpeFindBest ranks (pss.map List.flatten) with
          | none => pss.map List.flatten
          | some (_, j) => bpeMergeLoop ranks fuel (bpeMergeAt j (pss.map List.flatten)) := rfl
    rw [hstep]
    by_cases hlen : (pss.map List.flatten).length ≤ 1
    · rw [if_pos hlen]
      exact ⟨pss, rfl, rfl, hps⟩
    · rw [if_neg hlen]
      rcases hfind : bpeFindBest ranks (pss.map List.flatten) with _ | ⟨r, j⟩
      · exact ⟨pss, rfl, rfl, hps⟩
      · simp only []
        rw [bpeMergeAt_map j pss]
        obtain ⟨pss', h1, h2, h3⟩ := ih (psMergeAt j pss) (psMergeAt_ne j pss hps)
        exact ⟨pss', h1, by rw [h2, psMergeAt_flatten], h3⟩

theorem charFallbackF_step (v : SanaVocab) (fuel : Nat) (b : Nat) (r : Str) :
    charFallbackF v (fuel + 1) (b :: r) =
      if utf8_len_char (b :: r) = 0 then
        unkPiece v ++ charFallbackF v fuel ((b :: r).drop 1)
      else
        (match assocFind? v.token_to_id ((b :: r).take (utf8_len_char (b :: r))) with
         | some id => [id]
         | none => unkPiece v) ++
          charFallbackF v fuel ((b :: r).drop (utf8_len_char (b :: r))) := rfl

theorem charFallback_ne_nil (v : SanaVocab) (hunk : v.unk_token_id ≠ -1) (s : Str)
    (hs : s ≠ []) : charFallback v s ≠ [] := by
  obtain ⟨b, r, hbr⟩ := List.exists_cons_of_ne_nil hs
  subst hbr
  show charFallbackF v (b :: r).length (b :: r) ≠ []
  rw [List.length_cons, charFallbackF_step]
  have hunkne : unkPiece v ≠ [] := by
    unfold unkPiece
    rw [if_pos hunk]
    simp
  by_cases hl : utf8_len_char (b :: r) = 0
  · rw [if_pos hl]
    intro hc
    rw [List.append_eq_nil] at hc
    exact hunkne hc.1
  · rw [if_neg hl]
    rcases hfind : assocFind? v.token_to_id ((b :: r).take (utf8_len_char (b :: r)))
      with _ | id
    · intro hc
      rw [List.append_eq_nil] at hc
      exact hunkne hc.1
    · intro hc
      rw [List.append_eq_nil] at hc
      simp at hc

theorem singleton_groups_map (ws : List Str) :
    (ws.map (fun u => [u])).map List.flatten = ws := by
  rw [List.map_map]
  have h1 : (List.flatten ∘ fun u => ([u] : List Str)) = id := by
    funext u
    simp
  rw [h1, List.map_id]

theorem singleton_groups_flatten (ws : List Str) :
    (ws.map (fun u => ([u] : List Str))).flatten = ws := by
  induction ws with
  | nil => rfl
  | cons u ws ih =>
    rw [List.map_cons, List.flatten_cons, ih]
    rfl

theorem bpeProcessWord_ne_nil (v : SanaVocab) (ws : List Str) (hws : GoodUnits ws)
    (hne : ws ≠ [])
    (hok : v.unk_token_id ≠ -1 ∨ ∃ u ∈ ws, assocFind? v.token_to_id u ≠ none) :
    bpeProcessWord v ws.flatten ≠ [] := by
  have hword_ne : ws.flatten ≠ [] := flatten_ne_nil_of_goodUnits hws hne
  unfold bpeProcessWord
  rw [if_neg hword_ne]
  rcases hfind : assocFind? v.token_to_id ws.flatten with _ | id
  · simp only []
    rw [codepoints_flatten ws hws]
    rw [if_neg hne]
    have hsingle : ∀ g ∈ ws.map (fun u => ([u] : List Str)), g ≠ [] := by
      intro g hg
      rw [List.mem_map] at hg
      obtain ⟨u, hu, hgu⟩ := hg
      rw [← hgu]
      simp
    obtain ⟨pss', h1, h2, h3⟩ :=
      mergeLoop_partition v.bpe_ranks ws.length (ws.map (fun u => [u])) hsingle
    rw [singleton_groups_map ws] at h1
    rw [singleton_groups_flatten ws] at h2
    rw [h1]
    rcases hok with hunk | ⟨u, huws, hufind⟩
    · have hpss_ne : pss' ≠ [] := by
        intro hc
        rw [hc] at h2
        exact hne h2.symm
      obtain ⟨g, pss2, hg⟩ := List.exists_cons_of_ne_nil hpss_ne
      have hgmem : g ∈ pss' := by
        rw [hg]
        simp
      have hgood : GoodUnits g := fun x hx => hws x (by
        rw [← h2]
        exact List.mem_flatten.mpr ⟨g, hgmem, hx⟩)
      have hgne : g ≠ [] := h3 g hgmem
      apply flatMap_ne_nil _ _ g.flatten (List.mem_map_of_mem List.flatten hgmem)
      rcases hfind2 : assocFind? v.token_to_id g.flatten with _ | id2
      · simp only []
        exact charFallback_ne_nil v hunk g.flatten (flatten_ne_nil_of_goodUnits hgood hgne)
      · simp
    · have hu2 : u ∈ pss'.flatten := by
        rw [h2]
        exact huws
      obtain ⟨g, hgmem, hug⟩ := List.mem_flatten.mp hu2
      have hgood : GoodUnits g := fun x hx => hws x (by
        rw [← h2]
        exact List.mem_flatten.mpr ⟨g, hgmem, hx⟩)
      apply flatMap_ne_nil _ _ g.flatten (List.mem_map_of_mem List.flatten hgmem)
      rcases hfind2 : assocFind? v.token_to_id g.flatten with _ | id2
      · simp only []
        rw [charFallback_flatten v g hgood]
        unfold unitIds
        apply flatMap_ne_nil _ _ u hug
        rcases hfind3 : assocFind? v.token_to_id u with _ | id3
        · exact absurd hfind3 hufind
        · simp
      · simp
  · simp

theorem tokenize_bpe_nonempty (v : SanaVocab) (us : List Str) (hus : GoodUnits us)
    (hne : us ≠ [])
    (hok : v.unk_token_id ≠ -1 ∨ ∃ u ∈ us, assocFind? v.token_to_id u ≠ none) :
    v.tokenize_bpe us.flatten ≠ [] := by
  have htext_ne : us.flatten ≠ [] := flatten_ne_nil_of_goodUnits hus hne
  unfold SanaVocab.tokenize_bpe
  rw [if_neg htext_ne]
  by_cases hboot : v.bpe_ranks = [] ∧ v.id_to_token.length < 256
  · rw [if_pos hboot]
    rw [charFallback_flatten v us hus]
    unfold unitIds
    rcases hok with hunk | ⟨u, huus, hufind⟩
    · obtain ⟨u0, us2, hu0⟩ := List.exists_cons_of_ne_nil hne
      apply flatMap_ne_nil _ _ u0 (by rw [hu0]; simp)
      rcases hf : assocFind? v.token_to_id u0 with _ | id
      · simp only []
        unfold unkPiece
        rw [if_pos hunk]
        simp
      · simp
    · apply flatMap_ne_nil _ _ u huus
      rcases hf : assocFind? v.token_to_id u with _ | id
      · exact absurd hf hufind
      · simp
  · rw [if_neg hboot]
    unfold bpe_pre_tokenize_gpt2
    obtain ⟨wss, hw1, hw2, hw3⟩ := preTok_partition us.flatten.length us hus le_rfl
    rw [hw1]
    rcases hok with hunk | ⟨u, huus, hufind⟩
    · have hwss_ne : wss ≠ [] := by
        intro hc
        rw [hc] at hw2
        exact hne hw2.symm
      obtain ⟨ws0, wss2, hws0⟩ := List.exists_cons_of_ne_nil hwss_ne
      have hmem : ws0 ∈ wss := by
        rw [hws0]
        simp
      have hgood : GoodUnits ws0 := fun x hx => hus x (by
        rw [← hw2]
        exact List.mem_flatten.mpr ⟨ws0, hmem, hx⟩)
      apply flatMap_ne_nil _ _ ws0.flatten (List.mem_map_of_mem List.flatten hmem)
      exact bpeProcessWord_ne_nil v ws0 hgood (hw3 ws0 hmem) (Or.inl hunk)
    · have hu2 : u ∈ wss.flatten := by
        rw [hw2]
        exact huus
      obtain ⟨ws0, hmem, hug⟩ := List.mem_flatten.mp hu2
      have hgood : GoodUnits ws0 := fun x hx => hus x (by
        rw [← hw2]
        exact List.mem_flatten.mpr ⟨ws0, hmem, hx⟩)
      apply flatMap_ne_nil _ _ ws0.flatten (List.mem_map_of_mem List.flatten hmem)
      exact bpeProcessWord_ne_nil v ws0 hgood (hw3 ws0 hmem) (Or.inr ⟨u, hug, hufind⟩)

/-! ### C4: nonemptiness of tokenize -/

/-- Vocabulary for the C4 counterexample: an SPM store whose vocabulary maps
`"a"`, but whose score table is empty and whose unknown id is unset. -/
def vC4 : SanaVocab :=
  { token_to_id := [([97], 0)]
    id_to_token := [[97]]
    id_to_score := []
    unk_token_id := -1 }

/-- Vocabulary for the C4 witness: an SPM store with `"a"` mapped and scored. -/
def vC4w : SanaVocab :=
  { token_to_id := [([97], 0)]
    id_to_token := [[97]]
    id_to_score := [5]
    unk_token_id := -1 }

/-- C4 (counterexample): on the SPM store `vC4` and the non-empty text `"a"`,
whose single codepoint `"a"` IS mapped in the vocabulary, `tokenize` returns
the empty sequence (the empty score table triggers the early exit of
`tokenize_spm`, which emits nothing because `unk_token_id` is unset) — the
claim's only stated exception (every codepoint unmapped and unk unset) does
not apply, yet the output is empty. -/
theorem tokenize_nonempty_cex :
    vC4.tokenize [97] false false = [] ∧ ([97] : Str) ≠ [] ∧
      (∃ u ∈ codepoints [97], assocFind? vC4.token_to_id u ≠ none) := by
  refine ⟨by decide, by simp, ⟨[97], by decide, by decide⟩⟩

/-- C4 (amended): for every store and every non-empty well-formed UTF-8 text,
`tokenize(text, false, false)` returns a non-empty sequence, except possibly
when every codepoint of the text is unmapped and `unk_token_id` is unset,
and except possibly when the store is SPM with an empty score table and
`unk_token_id` unset. -/
theorem tokenize_nonempty_amended (v : SanaVocab) (text : Str)
    (hwf : wellFormedBytes text = true) (hne : text ≠ [])
    (hok : v.unk_token_id ≠ -1 ∨
      ∃ u ∈ codepoints text, assocFind? v.token_to_id u ≠ none)
    (hspm : v.type = VocabType.SPM → v.id_to_score ≠ [] ∨ v.unk_token_id ≠ -1) :
    v.tokenize text false false ≠ [] := by
  obtain ⟨us, hus, htext, hneus⟩ := wellFormedBytes_units text hwf
  subst htext
  have hus_ne : us ≠ [] := hneus hne
  have htext_ne : us.flatten ≠ [] := flatten_ne_nil_of_goodUnits hus hus_ne
  have hfac : v.tokenize us.flatten false false =
      (match v.type with
       | VocabType.SPM => v.tokenize_spm us.flatten
       | VocabType.BPE => v.tokenize_bpe us.flatten) := by
    unfold SanaVocab.tokenize
    simp
  rw [hfac]
  rw [codepoints_flatten us hus] at hok
  rcases htype : v.type with _ | _
  · simp only []
    by_cases hscore : v.id_to_score = []
    · have hunk : v.unk_token_id ≠ -1 := by
        rcases hspm htype with h | h
        · exact absurd hscore h
        · exact h
      unfold SanaVocab.tokenize_spm
      rw [if_pos (Or.inr hscore), if_pos ⟨htext_ne, hunk⟩]
      simp
    · exact tokenize_spm_nonempty v us hus hus_ne hscore hok
  · simp only []
    exact tokenize_bpe_nonempty v us hus hus_ne hok

/-- C4 (witness): the amended theorem applied to the SPM store `vC4w` and the
text `"a"`, whose hypotheses hold there. -/
theorem tokenize_nonempty_amended_witness :
    wellFormedBytes [97] = true ∧ ([97] : Str) ≠ [] ∧
      vC4w.tokenize [97] false false ≠ [] :=
  ⟨by decide, by simp, tokenize_nonempty_amended vC4w [97] (by decide) (by simp)
    (Or.inr ⟨[97], by decide, by decide⟩) (fun _ => Or.inl (by decide))⟩

end SanaSpec
